import Mathlib

/-!
Verification development for the polynomial-factorization repository.

The development shallowly embeds:
  * `factorization/polynomial/simple_polynomial.hpp` (`SimplePolynomial`),
    generically over the coefficient element type, as operations on `List α`
    (coefficients from constant term to leading term);
  * `factorization/galois_field/log_based_field.hpp` (`LogBasedField`), both
    the general template and the base-2 specialization, as table builders on
    `Nat` values;
  * the Berlekamp factorizer of the solver (`BerlekampExperiment`);
  * `factorization/utils.hpp` (`BinPow`).

Machine integers are modelled as `Nat`; all values arising in the embedded
fields stay far below 2^32, so no wrap-around modelling is needed except where
noted (the exponent product inside `Pow`, bounded by hypothesis).
-/

set_option linter.unusedSectionVars false

namespace Factorization

/-- The element-level operations `SimplePolynomial` and the factorizer consume,
mirroring the repository's `GaloisFieldElement` concept (operators `+ - * /`,
unary minus, `Inverse`, `Pow`, `Zero`, `One`, `AsPolyConstant`, `Get`,
`FieldBase`, `FieldPower`, `AllFieldElements`). -/
structure FieldOps (α : Type) where
  zero : α
  one : α
  add : α → α → α
  sub : α → α → α
  neg : α → α
  mul : α → α → α
  div : α → α → α
  inv : α → α
  pow : α → Nat → α
  asPolyConstant : Nat → α
  get : α → Nat
  fieldBase : Nat
  fieldPower : Nat
  allElements : List α

variable {α : Type} [DecidableEq α]

namespace Poly

/-- `SimplePolynomial::RemoveLeadingZeros`: drop zero coefficients from the
high end (the C++ loop decrements `new_size` while the last entry is zero and
resizes). -/
def removeLeadingZeros (F : FieldOps α) (l : List α) : List α :=
  (l.reverse.dropWhile (fun a => a = F.zero)).reverse

/-- Constructor from a coefficient vector (trims trailing zeros). -/
def ofCoeffs (F : FieldOps α) (l : List α) : List α :=
  removeLeadingZeros F l

/-- Constructor from a single element (`data_(1, element)` then trim). -/
def ofElement (F : FieldOps α) (e : α) : List α :=
  removeLeadingZeros F [e]

/-- `IsZero`: the coefficient vector is empty. -/
def isZero (l : List α) : Bool :=
  l.length = 0

/-- `IsOne`: a single coefficient equal to one. -/
def isOne (F : FieldOps α) (l : List α) : Bool :=
  l.length = 1 && l.getD 0 F.zero = F.one

/-- Coefficient at index `i` (zero when out of range).  This is the
mathematical reading of the stored vector; used to state properties. -/
def coeff (F : FieldOps α) (l : List α) (i : Nat) : α :=
  l.getD i F.zero

/-- `operator+=` (polynomial): resize to the longer length padding with zeros,
add pointwise, trim. -/
def polyAdd (F : FieldOps α) (a b : List α) : List α :=
  removeLeadingZeros F
    ((List.range (max a.length b.length)).map
      (fun i => F.add (coeff F a i) (coeff F b i)))

/-- `operator-=` (polynomial): same shape with element subtraction. -/
def polySub (F : FieldOps α) (a b : List α) : List α :=
  removeLeadingZeros F
    ((List.range (max a.length b.length)).map
      (fun i => F.sub (coeff F a i) (coeff F b i)))

/-- `operator+=` (element): add to the constant coefficient (push when empty),
trim. -/
def polyAddElem (F : FieldOps α) (a : List α) (e : α) : List α :=
  match a with
  | [] => removeLeadingZeros F [e]
  | a0 :: rest => removeLeadingZeros F (F.add a0 e :: rest)

/-- `operator-=` (element): subtract from the constant coefficient (push when
empty), trim. -/
def polySubElem (F : FieldOps α) (a : List α) (e : α) : List α :=
  match a with
  | [] => removeLeadingZeros F [e]
  | a0 :: rest => removeLeadingZeros F (F.sub a0 e :: rest)

/-- Unary `operator-`: negate every coefficient and rebuild through the
constructor (which trims). -/
def polyNeg (F : FieldOps α) (a : List α) : List α :=
  removeLeadingZeros F (a.map F.neg)

/-- One pass of the schoolbook product: add `coefficient * a` shifted by
`power` into the accumulator (`*with += *what * coefficient`). -/
def mulAddInto (F : FieldOps α) (a : List α) (power : Nat) (c : α)
    (result : List α) : List α :=
  (List.range result.length).map
    (fun i =>
      if power ≤ i ∧ i < power + a.length then
        F.add (result.getD i F.zero) (F.mul (a.getD (i - power) F.zero) c)
      else result.getD i F.zero)

/-- `operator*=` (polynomial): empty operand gives zero; a size-1 operand
multiplies coefficients in place; otherwise the schoolbook double loop that
skips zero coefficients of `b`. -/
def polyMul (F : FieldOps α) (a b : List α) : List α :=
  if a.length = 0 ∨ b.length = 0 then []
  else if b.length = 1 then a.map (fun x => F.mul x (b.getD 0 F.zero))
  else
    (List.range b.length).foldl
      (fun result power =>
        if b.getD power F.zero = F.zero then result
        else mulAddInto F a power (b.getD power F.zero) result)
      (List.replicate (a.length + b.length - 1) F.zero)

/-- `operator*=` (element): clear when the element is zero, otherwise scale
every coefficient. -/
def polyMulElem (F : FieldOps α) (a : List α) (e : α) : List α :=
  if e = F.zero then [] else a.map (fun x => F.mul x e)

/-- `operator/=` (element): multiply every coefficient by the inverse of the
element (nonzero element required). -/
def polyDivElem (F : FieldOps α) (a : List α) (e : α) : List α :=
  a.map (fun x => F.mul x (F.inv e))

/-- Subtract `c` times `g` from `data` starting at position `power`
(the inner loop `*divident -= *divisor * coefficient`, low index first). -/
def subtractScaled (F : FieldOps α) (data g : List α) (power : Nat) (c : α) :
    List α :=
  (List.range data.length).map
    (fun i =>
      if power ≤ i ∧ i < power + g.length then
        F.sub (data.getD i F.zero) (F.mul (g.getD (i - power) F.zero) c)
      else data.getD i F.zero)

/-- The coefficient computed at one elimination step:
`*divident / *divisor`, i.e. `data[power + m − 1] / g[m − 1]`. -/
def divModCoeff (F : FieldOps α) (g data : List α) (power : Nat) : α :=
  F.div (data.getD (power + g.length - 1) F.zero) (g.getD (g.length - 1) F.zero)

/-- One elimination step on `data`: when the coefficient is nonzero, subtract
`coefficient · g` at offset `power` (a zero coefficient `continue`s). -/
def divModStep (F : FieldOps α) (g data : List α) (power : Nat) : List α :=
  if divModCoeff F g data power = F.zero then data
  else subtractScaled F data g power (divModCoeff F g data power)

/-- The shared elimination loop of `operator/=` and `operator%=`.
`steps` powers are processed from the highest (`steps - 1`) down to `0`; at
power `p` the coefficient `data[p + m - 1] / g[m - 1]` is recorded in the
quotient and, when nonzero, `c · g` is subtracted from `data` at offset `p`.
Returns the final `data` and the quotient coefficients (low power first). -/
def divModLoop (F : FieldOps α) (g : List α) : Nat → List α → List α × List α
  | 0, data => (data, [])
  | steps + 1, data =>
    ((divModLoop F g steps (divModStep F g data steps)).1,
     (divModLoop F g steps (divModStep F g data steps)).2
       ++ [divModCoeff F g data steps])

/-- `operator/=` (polynomial): sizes `n < m` give the zero quotient; a size-1
divisor routes to division by its constant; otherwise the long-division loop,
keeping the quotient coefficients. -/
def polyDiv (F : FieldOps α) (a b : List α) : List α :=
  if a.length < b.length then []
  else if b.length = 1 then polyDivElem F a (b.getD 0 F.zero)
  else (divModLoop F b (a.length - b.length + 1) a).2

/-- `operator%=` (polynomial): sizes `n < m` leave the polynomial unchanged;
otherwise the same elimination loop runs `n - m + 1` steps and the residue is
trimmed. -/
def polyMod (F : FieldOps α) (a b : List α) : List α :=
  if a.length < b.length then a
  else removeLeadingZeros F (divModLoop F b (a.length - b.length + 1) a).1

/-- `Derivative`: coefficient `i` of the input contributes
`AsPolyConstant(i) * a[i]` at position `i - 1`; the result is rebuilt through
the constructor (trimming). -/
def derivative (F : FieldOps α) (a : List α) : List α :=
  if a.length ≤ 1 then []
  else
    removeLeadingZeros F
      ((List.range (a.length - 1)).map
        (fun i => F.mul (F.asPolyConstant (i + 1)) (a.getD (i + 1) F.zero)))

/-- `MakeMonic`: nothing on the zero polynomial or when the leading
coefficient is already one; otherwise divide every coefficient by the leading
one (element-level `Divide`). -/
def makeMonic (F : FieldOps α) (a : List α) : List α :=
  match a with
  | [] => []
  | a0 :: rest =>
    if (a0 :: rest).getD rest.length F.zero = F.one then a0 :: rest
    else (a0 :: rest).map (fun x => F.div x ((a0 :: rest).getD rest.length F.zero))

/-- Lexicographic comparison of stored values from the constant term upward:
the first differing value decides; equal lists give `false`. -/
def lexLtVals : List Nat → List Nat → Bool
  | [], [] => false
  | [], _ :: _ => false
  | _ :: _, [] => false
  | x :: xs, y :: ys => if x ≠ y then x < y else lexLtVals xs ys

/-- `operator<` on polynomials: shorter first, then coefficient-wise
comparison of the stored integer values from the constant term upward. -/
def polyLt (F : FieldOps α) (a b : List α) : Bool :=
  if a.length ≠ b.length then a.length < b.length
  else lexLtVals (a.map F.get) (b.map F.get)

/-- A coefficient vector with no trailing zeros (class invariant of
`SimplePolynomial`). -/
def Trimmed (F : FieldOps α) (l : List α) : Prop :=
  l = [] ∨ l.getLast? ≠ some F.zero

instance (F : FieldOps α) (l : List α) : Decidable (Trimmed F l) := by
  unfold Trimmed; infer_instance

end Poly

/-! ## The log-table field (`log_based_field.hpp`) and `utils::BinPow` -/

/-- The `utils::BinPow` loop with explicit fuel (the power strictly halves,
so `p` itself bounds the iteration count; structural recursion keeps the
definition kernel-reducible). -/
def binPowAux (b : Nat) : Nat → Nat → Nat
  | 0, _ => 1
  | fuel + 1, p =>
    if p = 0 then 1
    else (if p % 2 ≠ 0 then b else 1) * binPowAux (b * b) fuel (p / 2)

/-- `utils::BinPow`: square-and-multiply (`result *= base` on odd steps,
`base *= base`, halve the power). -/
def binPow (b p : Nat) : Nat :=
  binPowAux b p p

/-- `GetBitesPerSymbol` search loop: the smallest `b` starting from 1 with
`(1 << b) ≥ base` (the C++ `while` loop; fuel bounds the search). -/
def bitsSearch (base : Nat) : Nat → Nat → Nat
  | 0, b => b
  | fuel + 1, b => if (1 <<< b) < base then bitsSearch base fuel (b + 1) else b

/-- `GetBitesPerSymbol`: one bit more than needed to store a digit. -/
def getBitsPerSymbol (base : Nat) : Nat :=
  bitsSearch base base 1 + 1

/-- `CalcMask`: the value with digit 1 in each of the `k` packed symbols. -/
def calcMask (bits k : Nat) : Nat :=
  (List.range (k - 1)).foldl (fun r _ => (r <<< bits) + 1) 1

/-- The tables and parameters of one `LogBasedField` instantiation. -/
structure LogFieldData where
  fieldBase : Nat
  fieldPower : Nat
  fieldSize : Nat
  bitsPerSymbol : Nat
  logToPoly : List Nat
  polyToLog : List Nat
  toGoodView : List Nat
deriving DecidableEq, Repr

namespace LogFieldData

/-- `to_good_view_` entry computation: reduce each packed digit from `[0,2p)`
to `[0,p)`; a digit `≥ 2p` breaks out of the loop, dropping it and all higher
digits. -/
def goodValueAux (base bits value : Nat) : Nat → Nat → Nat
  | 0, _ => 0
  | fuel + 1, i =>
    let digit := (value >>> (i * bits)) &&& ((1 <<< bits) - 1)
    if digit ≥ 2 * base then 0
    else
      let d := if digit ≥ base then digit - base else digit
      (d <<< (bits * i)) ||| goodValueAux base bits value fuel (i + 1)

/-- One `to_good_view_` entry (`k` digits scanned from digit 0). -/
def goodValue (base bits k value : Nat) : Nat :=
  goodValueAux base bits value k 0

/-- General-template `Add`: table lookup of the packed digit-wise sum. -/
def genAdd (d : LogFieldData) (a b : Nat) : Nat :=
  d.toGoodView.getD (a + b) 0

/-- General-template `Negative`: subtract from the constant with every digit
equal to `p`, then normalize. -/
def genNegative (d : LogFieldData) (v : Nat) : Nat :=
  d.toGoodView.getD (calcMask d.bitsPerSymbol d.fieldPower * d.fieldBase - v) 0

/-- General-template `Sub`: add the negation. -/
def genSub (d : LogFieldData) (a b : Nat) : Nat :=
  genAdd d a (genNegative d b)

/-- `Multiply` (both templates): zero absorbs; otherwise the log/pow tables. -/
def tblMultiply (d : LogFieldData) (a b : Nat) : Nat :=
  if a = 0 ∨ b = 0 then 0
  else d.logToPoly.getD (d.polyToLog.getD a 0 + d.polyToLog.getD b 0) 0

/-- `Divide` (both templates): `0 / b = 0`; otherwise
`pow_of[(q−1) − log b + log a]`. -/
def tblDivide (d : LogFieldData) (a b : Nat) : Nat :=
  if a = 0 then 0
  else d.logToPoly.getD
    (d.fieldSize - 1 - d.polyToLog.getD b 0 + d.polyToLog.getD a 0) 0

/-- `Pow` (both templates): `0 ^ e = 0`; otherwise
`pow_of[(e · log a) mod (q−1)]`. -/
def tblPow (d : LogFieldData) (a e : Nat) : Nat :=
  if a = 0 then 0
  else d.logToPoly.getD (e * d.polyToLog.getD a 0 % (d.fieldSize - 1)) 0

/-- General-template `Inverse`: `pow_of[(q−1) − log a]`. -/
def genInverse (d : LogFieldData) (v : Nat) : Nat :=
  d.logToPoly.getD (d.fieldSize - 1 - d.polyToLog.getD v 0) 0

/-- Base-2 `Inverse`: 1 is its own inverse, otherwise the table formula. -/
def xorInverse (d : LogFieldData) (v : Nat) : Nat :=
  if v = 1 then v else d.logToPoly.getD (d.fieldSize - 1 - d.polyToLog.getD v 0) 0

/-- General-template `FieldValueFromConstant`: reduce modulo `p`. -/
def genConstant (d : LogFieldData) (v : Nat) : Nat :=
  v % d.fieldBase

/-- General-template `NextFieldValue`: increment, then skip values that the
normalization table does not fix (not legal encodings). -/
def genNextAux (d : LogFieldData) : Nat → Nat → Nat
  | 0, v => v
  | fuel + 1, v => if v ≠ d.toGoodView.getD v 0 then genNextAux d fuel (v + 1) else v

/-- General-template `NextFieldValue` with fuel the table size. -/
def genNext (d : LogFieldData) (v : Nat) : Nat :=
  genNextAux d d.toGoodView.length (v + 1)

/-- General-template `LastFieldValue`: every digit equal to `p − 1`. -/
def genLast (d : LogFieldData) : Nat :=
  calcMask d.bitsPerSymbol d.fieldPower * (d.fieldBase - 1)

/-- `FieldElementWrapper::AllFieldElements`: iterate `First/Next` until
`Last`, collecting every value (fuel bounds the loop). -/
def collectElements (next : Nat → Nat) (last : Nat) : Nat → Nat → List Nat
  | 0, v => [v]
  | fuel + 1, v => if v = last then [v] else v :: collectElements next last fuel (next v)

/-- The general-template enumeration of all field values. -/
def genAllElements (d : LogFieldData) : List Nat :=
  collectElements (genNext d) (genLast d) d.toGoodView.length 0

/-- Base-2 enumeration of all field values (`Next` is increment, `Last` is
`q − 1`). -/
def xorAllElements (d : LogFieldData) : List Nat :=
  collectElements (fun v => v + 1) (d.fieldSize - 1) d.fieldSize 0

end LogFieldData

/-- The general-template `LogBasedField` constructor: build `to_good_view_`,
then enumerate the powers of `x` modulo the generator for `q − 1` steps
filling both log tables, then duplicate `pow_of` into the upper half. -/
def mkLogBasedField (p k : Nat) (gen : List Nat) : LogFieldData :=
  let bits := getBitsPerSymbol p
  let q := binPow p k
  let tgv := (List.range (1 <<< (bits * k))).map
    (fun v => LogFieldData.goodValue p bits k v)
  let kBitsShift := bits * (k - 1)
  let kOtherZero := calcMask bits k * p
  let step := fun (polynom : Nat) =>
    let overflow := polynom >>> kBitsShift
    let polynom1 := (polynom &&& ((1 <<< kBitsShift) - 1)) <<< bits
    if overflow > 0 then
      let ov := tgv.getD (kOtherZero - overflow) 0
      let adder := ((List.range (k - 1)).reverse.map (fun j => j + 1)).foldl
        (fun ad i => (ad ||| (gen.getD i 0 * ov % p)) <<< bits) 0
      let adder := adder ||| (gen.getD 0 0 * ov % p)
      tgv.getD (polynom1 + adder) 0
    else polynom1
  let init : Nat × List Nat × List Nat :=
    (1, List.replicate (2 * q) 0, List.replicate (1 <<< (bits * k - 1)) 0)
  let built := (List.range (q - 1)).foldl
    (fun st power =>
      let ltp := st.2.1.set power st.1
      let ptl := st.2.2.set st.1 power
      (step st.1, ltp, ptl))
    init
  let ltp := (List.range (q - 1)).foldl
    (fun (t : List Nat) i => t.set (i + q - 1) (t.getD i 0)) built.2.1
  { fieldBase := p, fieldPower := k, fieldSize := q, bitsPerSymbol := bits,
    logToPoly := ltp, polyToLog := built.2.2, toGoodView := tgv }

/-- The base-2 specialization constructor: compute the packed generator and
`alpha = 2^(k−1)`, enumerate powers of `x` with shift/xor reduction, then
duplicate `pow_of` (the copy loop runs `q` steps here). -/
def mkLogBasedField2 (k : Nat) (gen : List Nat) : LogFieldData :=
  let q := 1 <<< k
  let ga := ((List.range (k - 1)).map (fun j => j + 1)).foldl
    (fun (st : Nat × Nat) i =>
      let alpha := st.2 <<< 1
      (st.1 ^^^ alpha * gen.getD i 0, alpha))
    (gen.getD 0 0, 1)
  let generator := ga.1
  let alpha := ga.2
  let step := fun (polynom : Nat) =>
    if polynom ≥ alpha then ((polynom - alpha) <<< 1) ^^^ generator
    else polynom <<< 1
  let init : Nat × List Nat × List Nat :=
    (1, List.replicate (2 * q) 0, List.replicate q 0)
  let built := (List.range (q - 1)).foldl
    (fun st power =>
      let ltp := st.2.1.set power st.1
      let ptl := st.2.2.set st.1 power
      (step st.1, ltp, ptl))
    init
  let ltp := (List.range q).foldl
    (fun (t : List Nat) i => t.set (i + q - 1) (t.getD i 0)) built.2.1
  { fieldBase := 2, fieldPower := k, fieldSize := q, bitsPerSymbol := 1,
    logToPoly := ltp, polyToLog := built.2.2, toGoodView := [] }

/-! ## The Berlekamp factorizer (`BerlekampExperiment`) -/

namespace Solver

/-- Modelled from the spec: the polynomial `Gcd` of
`factorization/solver/common.hpp` (not under `src/`; §4.3): while `b` is
nonzero, `(a, b) ← (b, a mod b)`; finally monic-normalise `a`.  Fuel bounds
the Euclidean loop; the wrapper supplies enough for every input. -/
def gcdAux (F : FieldOps α) : Nat → List α → List α → List α
  | 0, a, _ => Poly.makeMonic F a
  | fuel + 1, a, b =>
    if Poly.isZero b then Poly.makeMonic F a
    else gcdAux F fuel b (Poly.polyMod F a b)

/-- Modelled from the spec: `Gcd` entry point (§4.3); the fuel
`|a| + |b| + 2` dominates the number of Euclidean steps, whose second
component strictly shrinks. -/
def gcdPoly (F : FieldOps α) (a b : List α) : List α :=
  gcdAux F (a.length + b.length + 2) a b

/-- `BerlekampExperiment::FieldBaseRoot`: in place, coefficient `i·p` is
raised to the power `p^(k−1)` and written to slot `i`; the vector is resized
to `⌈size / p⌉` and rebuilt through the constructor. -/
def fieldBaseRoot (F : FieldOps α) (a : List α) : List α :=
  let p := F.fieldBase
  let kPower := binPow p (F.fieldPower - 1)
  let numIter := (a.length + p - 1) / p
  let written := (List.range numIter).foldl
    (fun es j => es.set j (F.pow (es.getD (p * j) F.zero) kPower)) a
  Poly.removeLeadingZeros F (written.take numIter)

/-- Pad (or cut) a coefficient vector to exactly `n` entries — writing a
reduced row into a zero-initialised matrix row. -/
def padTo (F : FieldOps α) (n : Nat) (l : List α) : List α :=
  (List.range n).map (fun i => l.getD i F.zero)

/-- `BerlekampExperiment::BuildMatrix`: rows `x^(i·q) mod h` for
`i < n = deg h` (iterated multiplication by `x^q mod h`), then subtract the
identity and transpose, giving `(A − E)ᵀ`. -/
def buildMatrix (F : FieldOps α) (h : List α) : List (List α) :=
  let q := binPow F.fieldBase F.fieldPower
  let n := h.length - 1
  let base := Poly.polyMod F (Poly.ofCoeffs F (List.replicate q F.zero ++ [F.one])) h
  let rowsBuild := (List.range n).foldl
    (fun (st : List α × List (List α)) _ =>
      (Poly.polyMod F (Poly.polyMul F st.1 base) h, st.2 ++ [padTo F n st.1]))
    (Poly.ofElement F F.one, [])
  let amat := rowsBuild.2
  let m1 := (List.range n).map (fun i =>
    (List.range n).map (fun j =>
      if i = j then F.sub ((amat.getD i []).getD j F.zero) F.one
      else (amat.getD i []).getD j F.zero))
  (List.range n).map (fun i =>
    (List.range n).map (fun j => (m1.getD j []).getD i F.zero))

/-- The pivot search of `PerformGaussElimination`: starting at `r`, skip rows
whose entry in `column` is zero (fuel bounds the `while`). -/
def findPivotRow (F : FieldOps α) (matrix : List (List α)) (column : Nat) :
    Nat → Nat → Nat
  | 0, r => r
  | fuel + 1, r =>
    if r < matrix.length ∧ (matrix.getD r []).getD column F.zero = F.zero then
      findPivotRow F matrix column fuel (r + 1)
    else r

/-- One column step of `PerformGaussElimination`: find a pivot row, swap it
up, scale it so the pivot is one, then clear the column in every other row
(entries left of the column are untouched; the pivot column entry is zeroed
directly). -/
def gaussStep (F : FieldOps α) (st : List (List α) × Nat) (column : Nat) :
    List (List α) × Nat :=
  let matrix := st.1
  let row := st.2
  let n := matrix.length
  let nextRow := findPivotRow F matrix column n row
  if nextRow ≠ n then
    let rowNext := matrix.getD nextRow []
    let rowAtRow := matrix.getD row []
    let m1 := (matrix.set nextRow rowAtRow).set row rowNext
    let coeff := F.inv ((m1.getD row []).getD column F.zero)
    let scaled := (List.range n).map (fun i =>
      if column ≤ i then F.mul ((m1.getD row []).getD i F.zero) coeff
      else (m1.getD row []).getD i F.zero)
    let m2 := m1.set row scaled
    let m3 := (List.range n).foldl (fun m other =>
      if other = row ∨ (m.getD other []).getD column F.zero = F.zero then m
      else
        let c2 := (m.getD other []).getD column F.zero
        let newRow := (List.range n).map (fun i =>
          if i = column then F.zero
          else if column + 1 ≤ i then
            F.sub ((m.getD other []).getD i F.zero)
              (F.mul ((m.getD row []).getD i F.zero) c2)
          else (m.getD other []).getD i F.zero)
        m.set other newRow) m2
    (m3, row + 1)
  else (matrix, row)

/-- `PerformGaussElimination`: sweep the columns left to right, then keep only
the pivot rows (`matrix.resize(row)`). -/
def performGauss (F : FieldOps α) (matrix : List (List α)) : List (List α) :=
  let n := matrix.length
  let fin := (List.range n).foldl (fun st col => gaussStep F st col) (matrix, 0)
  fin.1.take fin.2

/-- The inner `while` of the position scan in `FindFactorizingBasis`: from
`col`, record free columns while the row's entry is zero; the pivot column is
where it stops. -/
def advanceColumn (F : FieldOps α) (mrow : List α) (n : Nat) :
    Nat → Nat → List Nat × Nat
  | 0, col => ([], col)
  | fuel + 1, col =>
    if col < n ∧ mrow.getD col F.zero = F.zero then
      let r := advanceColumn F mrow n fuel (col + 1)
      (col :: r.1, r.2)
    else ([], col)

/-- The position scan of `FindFactorizingBasis`: per pivot row, free columns
passed over and the pivot (`data_position`); any column after the last pivot
is free. -/
def scanRows (F : FieldOps α) (n : Nat) :
    List (List α) → Nat → List Nat × List Nat
  | [], col => ((List.range n).filter (fun c => col ≤ c), [])
  | mrow :: rest, col =>
    let a := advanceColumn F mrow n n col
    let r := scanRows F n rest (a.2 + 1)
    (a.1 ++ r.1, a.2 :: r.2)

/-- `BerlekampExperiment::FindFactorizingBasis`: Gauss-eliminate `(A − E)ᵀ`,
then for each free column emit the kernel vector with a one at that column
and `−matrix[row][column]` at each pivot position, read back as a polynomial
(the constructor trims). -/
def findFactorizingBasis (F : FieldOps α) (p : List α) : List (List α) :=
  let matrix := performGauss F (buildMatrix F p)
  let rank := matrix.length
  let n := p.length - 1
  let sc := scanRows F n matrix 0
  let freePos := sc.1
  let dataPos := sc.2
  freePos.map (fun c =>
    let current0 := (List.replicate n F.zero).set c F.one
    let current := (List.range rank).foldl
      (fun cur row => cur.set (dataPos.getD row 0)
        (F.neg ((matrix.getD row []).getD c F.zero))) current0
    Poly.ofCoeffs F current)

/-- The basis sweep of `SquareFreeFactorize`: refine the factor list with
`gcd(t, g − c)` over every current factor `t` and field constant `c`, keeping
nontrivial results; stop early once `|factors| = |basis|`. -/
def squareFreeLoop (F : FieldOps α) (basisLen : Nat) :
    List (List α) → List (List α) → List (List α)
  | [], factors => factors
  | factorizing :: rest, factors =>
    let newFactors := (factors.map (fun t =>
      (F.allElements.map (fun c =>
        gcdPoly F t (Poly.polySubElem F factorizing c))).filter
        (fun nf => !(Poly.isOne F nf)))).flatten
    if newFactors.length = basisLen then newFactors
    else squareFreeLoop F basisLen rest newFactors

/-- `BerlekampExperiment::SquareFreeFactorize`: a one-element basis means the
input is irreducible; otherwise run the basis sweep starting from
`factors = [h]`. -/
def squareFreeFactorize (F : FieldOps α) (p : List α) : List (List α) :=
  let basis := findFactorizingBasis F p
  if basis.length = 1 then [p]
  else squareFreeLoop F basis.length basis [p]

/-- `std::map<Polynom, int>::operator[] +=`: insert into the key-sorted
association list, adding to the value when the key is already present
(neither `<` holds). -/
def mapInsertAdd (F : FieldOps α) :
    List (List α × Nat) → List α → Nat → List (List α × Nat)
  | [], k, v => [(k, v)]
  | (k1, v1) :: rest, k, v =>
    if Poly.polyLt F k k1 then (k, v) :: (k1, v1) :: rest
    else if Poly.polyLt F k1 k then (k1, v1) :: mapInsertAdd F rest k v
    else (k1, v1 + v) :: rest

/-- `BerlekampExperiment::FactorizeImpl`: the square-free peeling loop.  When
the derivative vanishes, recurse on the p-th root and merge with
multiplicities scaled by `p`, then stop; otherwise split the square-free part
`f / gcd(f, f′)`, count each of its factors once, and continue on
`gcd(f, f′)`.  The accumulator is the `result` map; fuel bounds the loop plus
inner recursion (the degree strictly decreases in the real program). -/
def factorizeImplAux (F : FieldOps α) :
    Nat → List α → List (List α × Nat) → List (List α × Nat)
  | 0, _, acc => acc
  | fuel + 1, p, acc =>
    if Poly.isOne F p then acc
    else
      let d := Poly.derivative F p
      if Poly.isZero d then
        let sub := factorizeImplAux F fuel (fieldBaseRoot F p) []
        sub.foldl (fun m kv => mapInsertAdd F m kv.1 (kv.2 * F.fieldBase)) acc
      else
        let g := gcdPoly F p d
        let fs := squareFreeFactorize F (Poly.polyDiv F p g)
        factorizeImplAux F fuel g
          (fs.foldl (fun m k => mapInsertAdd F m k 1) acc)

/-- `BerlekampExperiment::Factorize`: monic-normalise, return the empty list
on zero or one, otherwise read the `FactorizeImpl` map out in key order. -/
def berlekampFactorize (F : FieldOps α) (fuel : Nat) (p : List α) :
    List (List α × Nat) :=
  let p1 := Poly.makeMonic F p
  if Poly.isZero p1 || Poly.isOne F p1 then []
  else factorizeImplAux F fuel p1 []

end Solver

/-- GF(8) over the primitive polynomial `1 + x + x³` (coefficients
`{1,1,0,1}`), through the base-2 specialization — the field of the spec's
end-to-end scenarios. -/
def f8 : LogFieldData := mkLogBasedField2 3 [1, 1, 0, 1]

/-- GF(9) over the primitive polynomial `2 + 2x + x²` (coefficients
`{2,2,1}`), through the general template — the field of the spec's
multiplication scenario. -/
def f9 : LogFieldData := mkLogBasedField 3 2 [2, 2, 1]

/-- The element operations of the GF(8) instantiation
(`FieldElementWrapper<LogBasedField<2, 3, {1,1,0,1}>>`): addition and
subtraction are xor, negation is the identity, the rest are table lookups. -/
def f8Ops : FieldOps Nat where
  zero := 0
  one := 1
  add := fun a b => a ^^^ b
  sub := fun a b => a ^^^ b
  neg := fun v => v
  mul := LogFieldData.tblMultiply f8
  div := LogFieldData.tblDivide f8
  inv := LogFieldData.xorInverse f8
  pow := LogFieldData.tblPow f8
  asPolyConstant := fun v => v &&& 1
  get := fun v => v
  fieldBase := 2
  fieldPower := 3
  allElements := LogFieldData.xorAllElements f8

/-- The element operations of the GF(9) instantiation
(`FieldElementWrapper<LogBasedField<3, 2, {2,2,1}>>`), through the general
template's packed-digit tables. -/
def f9Ops : FieldOps Nat where
  zero := 0
  one := 1
  add := LogFieldData.genAdd f9
  sub := LogFieldData.genSub f9
  neg := LogFieldData.genNegative f9
  mul := LogFieldData.tblMultiply f9
  div := LogFieldData.tblDivide f9
  inv := LogFieldData.genInverse f9
  pow := LogFieldData.tblPow f9
  asPolyConstant := LogFieldData.genConstant f9
  get := fun v => v
  fieldBase := 3
  fieldPower := 2
  allElements := LogFieldData.genAllElements f9

/-! ## Canonical GF(8) elements as a subtype

The GF(8) tables only ever produce values below 8, so the element type of the
instantiated polynomial `SimplePolynomial<FieldElementWrapper<F8>>` can be
modelled as the subtype of such values; every operation is the corresponding
`f8Ops` table operation. -/

/-- A canonical GF(8) element: a packed-bitfield value below 8. -/
structure GF8 where
  val : Nat
  lt8 : val < 8
deriving DecidableEq

/-- Wrap a table result as a `GF8` element (results are always in range; the
`% 8` makes totality syntactically evident). -/
def wrap8 (v : Nat) : GF8 :=
  ⟨v % 8, Nat.mod_lt _ (by omega)⟩

/-- All eight canonical GF(8) elements. -/
def gf8All : List GF8 :=
  [⟨0, by omega⟩, ⟨1, by omega⟩, ⟨2, by omega⟩, ⟨3, by omega⟩,
   ⟨4, by omega⟩, ⟨5, by omega⟩, ⟨6, by omega⟩, ⟨7, by omega⟩]

instance : Fintype GF8 :=
  Fintype.ofEquiv (Fin 8)
    ⟨fun i => ⟨i.val, i.isLt⟩, fun g => ⟨g.val, g.lt8⟩,
     fun _ => rfl, fun _ => rfl⟩

/-- The GF(8) element operations on canonical values: exactly the `f8Ops`
table operations on the underlying packed values. -/
def gf8Ops : FieldOps GF8 where
  zero := ⟨0, by omega⟩
  one := ⟨1, by omega⟩
  add := fun a b => wrap8 (f8Ops.add a.val b.val)
  sub := fun a b => wrap8 (f8Ops.sub a.val b.val)
  neg := fun a => wrap8 (f8Ops.neg a.val)
  mul := fun a b => wrap8 (f8Ops.mul a.val b.val)
  div := fun a b => wrap8 (f8Ops.div a.val b.val)
  inv := fun a => wrap8 (f8Ops.inv a.val)
  pow := fun a e => wrap8 (f8Ops.pow a.val e)
  asPolyConstant := fun v => wrap8 (f8Ops.asPolyConstant v)
  get := fun a => a.val
  fieldBase := 2
  fieldPower := 3
  allElements := f8Ops.allElements.map wrap8

/-- The `e`-fold field product of `a` (with the empty product equal to one),
using the field's `Multiply`; the mathematical reading of `pow` in the spec. -/
def iterMul (d : LogFieldData) (a : Nat) : Nat → Nat
  | 0 => 1
  | e + 1 => LogFieldData.tblMultiply d a (iterMul d a e)

/-- Finite sum `h 0 + … + h (n−1)` over a field's addition (used to state
coefficient convolutions). -/
def fsum (F : FieldOps α) (n : Nat) (h : Nat → α) : α :=
  (List.range n).foldr (fun i acc => F.add (h i) acc) F.zero

/-- The convolution coefficient `Σ_{p < |b|, p ≤ t} a[t−p] · b[p]` — the
`t`-th coefficient of the product polynomial `a · b`. -/
def convAt (F : FieldOps α) (a b : List α) (t : Nat) : α :=
  fsum F b.length
    (fun p => if p ≤ t then F.mul (a.getD (t - p) F.zero) (b.getD p F.zero)
      else F.zero)

instance : Add GF8 := ⟨fun a b => wrap8 (f8Ops.add a.val b.val)⟩

instance : Zero GF8 := ⟨⟨0, by omega⟩⟩

instance : AddCommMonoid GF8 where
  add_assoc := by decide
  zero_add := by decide
  add_zero := by decide
  add_comm := by decide
  nsmul := nsmulRec

/-! ## The field laws the polynomial proofs consume -/

/-- The element-level identities used by the `SimplePolynomial` correctness
proofs; every concrete field instantiation of the repository satisfies them
(they are decided for the GF(8) instantiation below). -/
structure GoodField (F : FieldOps α) : Prop where
  add_comm : ∀ a b, F.add a b = F.add b a
  add_assoc : ∀ a b c, F.add (F.add a b) c = F.add a (F.add b c)
  add_zero : ∀ a, F.add a F.zero = a
  sub_def : ∀ a b, F.sub a b = F.add a (F.neg b)
  add_neg : ∀ a, F.add a (F.neg a) = F.zero
  neg_zero : F.neg F.zero = F.zero
  mul_comm : ∀ a b, F.mul a b = F.mul b a
  mul_assoc : ∀ a b c, F.mul (F.mul a b) c = F.mul a (F.mul b c)
  one_mul : ∀ a, F.mul F.one a = a
  mul_zero : ∀ a, F.mul a F.zero = F.zero
  left_distrib : ∀ a b c, F.mul a (F.add b c) = F.add (F.mul a b) (F.mul a c)
  mul_div_cancel : ∀ a b, b ≠ F.zero → F.mul b (F.div a b) = a
  div_eq_mul_inv : ∀ a b, F.div a b = F.mul a (F.inv b)
  no_zero_div : ∀ a b, a ≠ F.zero → b ≠ F.zero → F.mul a b ≠ F.zero
  one_ne_zero : F.one ≠ F.zero

/-- The GF(8) instantiation satisfies every element-level law. -/
theorem goodField_gf8 : GoodField gf8Ops := by
  constructor <;> decide

/-! ## Claim C5 — zero divisors in `Inverse` and `Divide` -/

/-- C5 counterexample: the claim says a zero argument to `Inverse` (or a zero
divisor to `Divide`) is signalled observably and never silently yields an
incorrect element.  In fact `Inverse(0)` silently returns 1 in both the
general template (GF(9)) and the base-2 specialization (GF(8)) — and 1 is not
an inverse of 0 since `0 · 1 ≠ 1`; likewise `Divide(a, 0)` silently returns
`a` (here at `a = x` in GF(9), packed value 8). -/
theorem c5_counterexample :
    LogFieldData.genInverse f9 0 = 1 ∧
    LogFieldData.tblMultiply f9 0 (LogFieldData.genInverse f9 0) ≠ 1 ∧
    LogFieldData.xorInverse f8 0 = 1 ∧
    LogFieldData.tblMultiply f8 0 (LogFieldData.xorInverse f8 0) ≠ 1 ∧
    LogFieldData.tblDivide f9 8 0 = 8 := by
  decide

/-- C5 amended: `Inverse(0)` and `Divide(a, 0)` are unchecked caller bugs:
the implementation performs no signalling of any kind and silently returns
lookup-table values — `Inverse(0) = 1` and `Divide(a, 0) = a` for every
canonical element `a` — in both the general template (GF(9)) and the base-2
specialization (GF(8)); callers must never pass a zero divisor. -/
theorem c5_amended :
    (∀ a ∈ LogFieldData.genAllElements f9, LogFieldData.tblDivide f9 a 0 = a) ∧
    LogFieldData.genInverse f9 0 = 1 ∧
    (∀ a ∈ LogFieldData.xorAllElements f8, LogFieldData.tblDivide f8 a 0 = a) ∧
    LogFieldData.xorInverse f8 0 = 1 := by
  decide

/-- Witness for the amended C5 statement at the GF(9) element `x`
(packed value 8). -/
theorem c5_amended_witness : LogFieldData.tblDivide f9 8 0 = 8 :=
  c5_amended.1 8 (by decide)

/-! ## Claim C4 — the `Pow` contract -/

/-- C4 counterexample: the claim says `Pow(a, 0) = 1` for every element `a`,
but both implementations test `base == 0` first, so `Pow(0, 0) = 0 ≠ 1`. -/
theorem c4_counterexample :
    LogFieldData.tblPow f9 0 0 = 0 ∧ LogFieldData.tblPow f8 0 0 = 0 ∧
    (0 : Nat) ≠ 1 := by
  decide

/-- The table facts that make `Pow` compute iterated products: on a table
pair where `pow_of[0] = 1`, `pow_of` inverts `log_of` and never hits zero
below `q−1`, and `pow_of` is periodic on the duplicated upper half,
`Pow(a, e)` is the `e`-fold product of a nonzero canonical `a`
(`q1 = q − 1` is the group order). -/
theorem tblPow_iterMul_of_tables (d : LogFieldData) (q1 : Nat)
    (hq : d.fieldSize - 1 = q1) (hq1 : 0 < q1)
    (hone : d.logToPoly.getD 0 0 = 1)
    (hper : ∀ i, i ≤ 2 * q1 - 2 → d.logToPoly.getD i 0 = d.logToPoly.getD (i % q1) 0)
    (hne : ∀ j, j < q1 → d.logToPoly.getD j 0 ≠ 0)
    (hlog : ∀ j, j < q1 → d.polyToLog.getD (d.logToPoly.getD j 0) 0 = j)
    (a : Nat) (h0 : a ≠ 0) (hla : d.polyToLog.getD a 0 < q1) :
    ∀ e, LogFieldData.tblPow d a e = iterMul d a e := by
  intro e
  induction e with
  | zero =>
    simp only [LogFieldData.tblPow, if_neg h0, iterMul, hq,
      Nat.zero_mul, Nat.zero_mod]
    exact hone
  | succ e ih =>
    have hx : e * d.polyToLog.getD a 0 % q1 < q1 := Nat.mod_lt _ hq1
    have hy : d.logToPoly.getD (e * d.polyToLog.getD a 0 % q1) 0 ≠ 0 := hne _ hx
    simp only [iterMul, ← ih]
    simp only [LogFieldData.tblPow, if_neg h0, hq, LogFieldData.tblMultiply]
    rw [if_neg (by push_neg; exact ⟨h0, hy⟩)]
    rw [hlog _ hx]
    rw [hper (d.polyToLog.getD a 0 + e * d.polyToLog.getD a 0 % q1) (by omega)]
    congr 1
    rw [Nat.succ_mul]
    calc (e * d.polyToLog.getD a 0 + d.polyToLog.getD a 0) % q1
        = (e * d.polyToLog.getD a 0 % q1 + d.polyToLog.getD a 0 % q1) % q1 := by
          rw [Nat.add_mod]
      _ = (d.polyToLog.getD a 0 + e * d.polyToLog.getD a 0 % q1) % q1 := by
          rw [Nat.mod_eq_of_lt hla, Nat.add_comm]

/-- C4 amended: `Pow(0, e) = 0` for every `e ≥ 0` — including `e = 0`, where
the claim wrongly promised 1 — and for every nonzero canonical `a`, `Pow(a, e)`
is the table entry `pow_of[(e · log_of[a]) mod (q−1)]` and equals the `e`-fold
field product of `a` (so in particular `Pow(a, 0) = 1` for `a ≠ 0`); proved
for the general template at GF(9) and the base-2 specialization at GF(8).
Exponent arithmetic is modelled unbounded; the C++ `Power` type wraps only
for astronomically large `e · log`. -/
theorem c4_amended :
    (∀ e, LogFieldData.tblPow f9 0 e = 0) ∧
    (∀ e, LogFieldData.tblPow f8 0 e = 0) ∧
    (∀ a ∈ LogFieldData.genAllElements f9, a ≠ 0 → ∀ e,
      LogFieldData.tblPow f9 a e
          = f9.logToPoly.getD (e * f9.polyToLog.getD a 0 % (f9.fieldSize - 1)) 0 ∧
      LogFieldData.tblPow f9 a e = iterMul f9 a e) ∧
    (∀ a ∈ LogFieldData.xorAllElements f8, a ≠ 0 → ∀ e,
      LogFieldData.tblPow f8 a e
          = f8.logToPoly.getD (e * f8.polyToLog.getD a 0 % (f8.fieldSize - 1)) 0 ∧
      LogFieldData.tblPow f8 a e = iterMul f8 a e) := by
  refine ⟨fun e => rfl, fun e => rfl, ?_, ?_⟩
  · intro a ha h0 e
    refine ⟨by simp [LogFieldData.tblPow, if_neg h0], ?_⟩
    refine tblPow_iterMul_of_tables f9 8 (by decide) (by decide) (by decide)
      (by decide) (by decide) (by decide) a h0 ?_ e
    exact (show ∀ a ∈ LogFieldData.genAllElements f9, a ≠ 0 →
      f9.polyToLog.getD a 0 < 8 from by decide) a ha h0
  · intro a ha h0 e
    refine ⟨by simp [LogFieldData.tblPow, if_neg h0], ?_⟩
    refine tblPow_iterMul_of_tables f8 7 (by decide) (by decide) (by decide)
      (by decide) (by decide) (by decide) a h0 ?_ e
    exact (show ∀ a ∈ LogFieldData.xorAllElements f8, a ≠ 0 →
      f8.polyToLog.getD a 0 < 7 from by decide) a ha h0

/-- Witness for the amended C4 statement: in GF(9), `x · x = x + 1` (packed:
`Pow(8, 2) = 9`) agrees with the two-fold product. -/
theorem c4_amended_witness :
    LogFieldData.tblPow f9 8 2
        = f9.logToPoly.getD (2 * f9.polyToLog.getD 8 0 % (f9.fieldSize - 1)) 0 ∧
    LogFieldData.tblPow f9 8 2 = iterMul f9 8 2 :=
  c4_amended.2.2.1 8 (by decide) (by decide) 2

/-! ## Claim C8 — field axioms -/

/-- C8: over the fields built from primitive generator polynomials — the
general template at GF(9) with generator `{2,2,1}` and the base-2
specialization at GF(8) with generator `{1,1,0,1}` — for all canonical
elements `a`, `b`, `c`: `Add` and `Multiply` are commutative and associative,
`Multiply` distributes over `Add`, `a + 0 = a`, `a · 1 = a`,
`Add(a, Negative(a)) = 0`, and `Multiply(a, Inverse(a)) = 1` for `a ≠ 0`. -/
theorem c8_field_axioms :
    (∀ a ∈ f9Ops.allElements, ∀ b ∈ f9Ops.allElements, ∀ c ∈ f9Ops.allElements,
      f9Ops.add a b = f9Ops.add b a ∧
      f9Ops.add (f9Ops.add a b) c = f9Ops.add a (f9Ops.add b c) ∧
      f9Ops.mul a b = f9Ops.mul b a ∧
      f9Ops.mul (f9Ops.mul a b) c = f9Ops.mul a (f9Ops.mul b c) ∧
      f9Ops.mul a (f9Ops.add b c) = f9Ops.add (f9Ops.mul a b) (f9Ops.mul a c) ∧
      f9Ops.add a f9Ops.zero = a ∧
      f9Ops.mul a f9Ops.one = a ∧
      f9Ops.add a (f9Ops.neg a) = f9Ops.zero ∧
      (a ≠ f9Ops.zero → f9Ops.mul a (f9Ops.inv a) = f9Ops.one)) ∧
    (∀ a ∈ f8Ops.allElements, ∀ b ∈ f8Ops.allElements, ∀ c ∈ f8Ops.allElements,
      f8Ops.add a b = f8Ops.add b a ∧
      f8Ops.add (f8Ops.add a b) c = f8Ops.add a (f8Ops.add b c) ∧
      f8Ops.mul a b = f8Ops.mul b a ∧
      f8Ops.mul (f8Ops.mul a b) c = f8Ops.mul a (f8Ops.mul b c) ∧
      f8Ops.mul a (f8Ops.add b c) = f8Ops.add (f8Ops.mul a b) (f8Ops.mul a c) ∧
      f8Ops.add a f8Ops.zero = a ∧
      f8Ops.mul a f8Ops.one = a ∧
      f8Ops.add a (f8Ops.neg a) = f8Ops.zero ∧
      (a ≠ f8Ops.zero → f8Ops.mul a (f8Ops.inv a) = f8Ops.one)) := by
  decide

/-- Witness for C8 at concrete GF(9) elements: the spec's scenario
`x · x = x + 1` follows from commutativity applied at `a = x`, `b = x`,
`c = 1` together with the direct product. -/
theorem c8_field_axioms_witness :
    f9Ops.mul 8 8 = f9Ops.mul 8 8 ∧ f9Ops.mul 8 (f9Ops.inv 8) = f9Ops.one :=
  ⟨(c8_field_axioms.1 8 (by decide) 8 (by decide) 1 (by decide)).2.2.1 ▸ rfl,
   (c8_field_axioms.1 8 (by decide) 8 (by decide) 1 (by decide)).2.2.2.2.2.2.2.2
     (by decide)⟩


/-! ## Claim C10 — the output order of `Factorize` -/

theorem lexLtVals_trans :
    ∀ (a b c : List Nat), Poly.lexLtVals a b = true → Poly.lexLtVals b c = true →
      Poly.lexLtVals a c = true
  | [], [], _, h, _ => by simp [Poly.lexLtVals] at h
  | [], _ :: _, _, h, _ => by simp [Poly.lexLtVals] at h
  | _ :: _, [], _, h, _ => by simp [Poly.lexLtVals] at h
  | _ :: _, _ :: _, [], _, h2 => by simp [Poly.lexLtVals] at h2
  | x :: xs, y :: ys, z :: zs, h1, h2 => by
    simp only [Poly.lexLtVals] at h1 h2 ⊢
    by_cases hxy : x = y
    · subst hxy
      rw [if_neg (by omega)] at h1
      by_cases hxz : x = z
      · subst hxz
        rw [if_neg (by omega)] at h2
        rw [if_neg (by omega)]
        exact lexLtVals_trans xs ys zs h1 h2
      · rw [if_pos (by omega)] at h2
        rw [if_pos (by omega)]
        exact h2
    · rw [if_pos (by omega)] at h1
      have l1 : x < y := of_decide_eq_true h1
      by_cases hyz : y = z
      · subst hyz
        rw [if_pos (by omega)]
        exact decide_eq_true (by omega)
      · rw [if_pos (by omega)] at h2
        have l2 : y < z := of_decide_eq_true h2
        rw [if_pos (by omega)]
        exact decide_eq_true (by omega)

/-- The polynomial comparison `operator<` is transitive. -/
theorem polyLt_trans (F : FieldOps α) {a b c : List α}
    (h1 : Poly.polyLt F a b = true) (h2 : Poly.polyLt F b c = true) :
    Poly.polyLt F a c = true := by
  unfold Poly.polyLt at h1 h2 ⊢
  by_cases hab : a.length = b.length <;> by_cases hbc : b.length = c.length
  · rw [if_neg (by omega)] at h1
    rw [if_neg (by omega)] at h2
    rw [if_neg (by omega)]
    exact lexLtVals_trans _ _ _ h1 h2
  · rw [if_pos (by omega)] at h2
    have hb : b.length < c.length := of_decide_eq_true h2
    rw [if_pos (by omega)]
    exact decide_eq_true (by omega)
  · rw [if_pos (by omega)] at h1
    have ha : a.length < b.length := of_decide_eq_true h1
    rw [if_pos (by omega)]
    exact decide_eq_true (by omega)
  · rw [if_pos (by omega)] at h1
    rw [if_pos (by omega)] at h2
    have ha : a.length < b.length := of_decide_eq_true h1
    have hb : b.length < c.length := of_decide_eq_true h2
    rw [if_pos (by omega)]
    exact decide_eq_true (by omega)

/-- Every key of the map after an insertion is either the inserted key or a
key that was already present. -/
theorem mapInsertAdd_keys (F : FieldOps α) :
    ∀ (l : List (List α × Nat)) (k : List α) (v : Nat) (x : List α × Nat),
      x ∈ Solver.mapInsertAdd F l k v → x.1 = k ∨ x.1 ∈ l.map Prod.fst
  | [], k, v, x, hx => by
    simp only [Solver.mapInsertAdd, List.mem_singleton] at hx
    rw [hx]
    exact Or.inl rfl
  | (k1, v1) :: rest, k, v, x, hx => by
    simp only [Solver.mapInsertAdd] at hx
    by_cases h1 : Poly.polyLt F k k1 = true
    · rw [if_pos h1] at hx
      rcases List.mem_cons.mp hx with hx | hx
      · rw [hx]
        exact Or.inl rfl
      · rcases List.mem_cons.mp hx with hx | hx
        · rw [hx]
          exact Or.inr (by simp)
        · exact Or.inr (by simp; exact Or.inr ⟨x.2, by simpa using hx⟩)
    · rw [if_neg h1] at hx
      by_cases h2 : Poly.polyLt F k1 k = true
      · rw [if_pos h2] at hx
        rcases List.mem_cons.mp hx with hx | hx
        · rw [hx]
          exact Or.inr (by simp)
        · rcases mapInsertAdd_keys F rest k v x hx with h | h
          · exact Or.inl h
          · exact Or.inr (by simp; exact Or.inr (by simpa using h))
      · rw [if_neg h2] at hx
        rcases List.mem_cons.mp hx with hx | hx
        · rw [hx]
          exact Or.inr (by simp)
        · exact Or.inr (by simp; exact Or.inr ⟨x.2, by simpa using hx⟩)

/-- Inserting into a key-sorted association list keeps it key-sorted. -/
theorem mapInsertAdd_pairwise (F : FieldOps α) :
    ∀ (l : List (List α × Nat)) (k : List α) (v : Nat),
      l.Pairwise (fun x y => Poly.polyLt F x.1 y.1 = true) →
      (Solver.mapInsertAdd F l k v).Pairwise
        (fun x y => Poly.polyLt F x.1 y.1 = true)
  | [], k, v, _ => by simp [Solver.mapInsertAdd]
  | (k1, v1) :: rest, k, v, h => by
    rw [List.pairwise_cons] at h
    obtain ⟨hhead, hrest⟩ := h
    simp only [Solver.mapInsertAdd]
    by_cases h1 : Poly.polyLt F k k1 = true
    · rw [if_pos h1]
      refine List.Pairwise.cons ?_ (List.Pairwise.cons hhead hrest)
      intro y hy
      rcases List.mem_cons.mp hy with hy | hy
      · rw [hy]; exact h1
      · exact polyLt_trans F h1 (hhead y hy)
    · rw [if_neg h1]
      by_cases h2 : Poly.polyLt F k1 k = true
      · rw [if_pos h2]
        refine List.Pairwise.cons ?_ (mapInsertAdd_pairwise F rest k v hrest)
        intro y hy
        rcases mapInsertAdd_keys F rest k v y hy with h | h
        · rw [h]; exact h2
        · rcases List.mem_map.mp h with ⟨z, hz, hzy⟩
          have hlt := hhead z hz
          rw [hzy] at hlt
          exact hlt
      · rw [if_neg h2]
        exact List.Pairwise.cons (fun y hy => hhead y hy) hrest

/-- Merging a list of factor/multiplicity pairs into a sorted map by repeated
insertion keeps the map sorted. -/
theorem foldl_mapInsertAdd_pairwise {β : Type} (F : FieldOps α)
    (key : β → List α) (val : β → Nat) :
    ∀ (l : List β) (acc : List (List α × Nat)),
      acc.Pairwise (fun x y => Poly.polyLt F x.1 y.1 = true) →
      (l.foldl (fun m x => Solver.mapInsertAdd F m (key x) (val x)) acc).Pairwise
        (fun x y => Poly.polyLt F x.1 y.1 = true)
  | [], _, h => h
  | x :: xs, acc, h =>
    foldl_mapInsertAdd_pairwise F key val xs _
      (mapInsertAdd_pairwise F acc (key x) (val x) h)

/-- The `FactorizeImpl` accumulator map stays key-sorted through the whole
peeling loop. -/
theorem factorizeImplAux_pairwise (F : FieldOps α) :
    ∀ (fuel : Nat) (p : List α) (acc : List (List α × Nat)),
      acc.Pairwise (fun x y => Poly.polyLt F x.1 y.1 = true) →
      (Solver.factorizeImplAux F fuel p acc).Pairwise
        (fun x y => Poly.polyLt F x.1 y.1 = true)
  | 0, _, _, h => h
  | fuel + 1, p, acc, h => by
    simp only [Solver.factorizeImplAux]
    by_cases h1 : Poly.isOne F p = true
    · rw [if_pos h1]; exact h
    · rw [if_neg h1]
      by_cases h2 : Poly.isZero (Poly.derivative F p) = true
      · rw [if_pos h2]
        exact foldl_mapInsertAdd_pairwise F _ _ _ acc h
      · rw [if_neg h2]
        exact factorizeImplAux_pairwise F fuel _ _
          (foldl_mapInsertAdd_pairwise F _ _ _ acc h)

/-- C10: for every field, every fuel bound and every input polynomial, the
factor list returned by `Factorize` is strictly increasing in the polynomial
total order `operator<` (fewer coefficients first, then coefficient-wise
comparison of stored values from the constant term up).  In particular lower
degree factors come first, the same polynomial never appears twice, and —
`berlekampFactorize` being a function of its arguments — the output order is
fully deterministic. -/
theorem c10_factorize_output_sorted (F : FieldOps α) (fuel : Nat) (p : List α) :
    ((Solver.berlekampFactorize F fuel p).map Prod.fst).Pairwise
      (fun a b => Poly.polyLt F a b = true) := by
  rw [List.pairwise_map]
  unfold Solver.berlekampFactorize
  by_cases h : (Poly.isZero (Poly.makeMonic F p)
      || Poly.isOne F (Poly.makeMonic F p)) = true
  · rw [if_pos h]; exact List.Pairwise.nil
  · rw [if_neg h]
    exact factorizeImplAux_pairwise F fuel _ [] List.Pairwise.nil

/-! ## Derived element-level algebra -/

section GoodFieldLemmas

variable {F : FieldOps α}

theorem gfZeroAdd (hF : GoodField F) (a : α) : F.add F.zero a = a := by
  rw [hF.add_comm]; exact hF.add_zero a

theorem gfMulOne (hF : GoodField F) (a : α) : F.mul a F.one = a := by
  rw [hF.mul_comm]; exact hF.one_mul a

theorem gfZeroMul (hF : GoodField F) (a : α) : F.mul F.zero a = F.zero := by
  rw [hF.mul_comm]; exact hF.mul_zero a

theorem gfSubZero (hF : GoodField F) (a : α) : F.sub a F.zero = a := by
  rw [hF.sub_def, hF.neg_zero, hF.add_zero]

theorem gfSubSelf (hF : GoodField F) (a : α) : F.sub a a = F.zero := by
  rw [hF.sub_def, hF.add_neg]

theorem gfNegUnique (hF : GoodField F) {x y : α} (h : F.add x y = F.zero) : y = F.neg x := by
  have h1 : F.add (F.add x y) (F.neg x) = F.neg x := by rw [h, gfZeroAdd hF]
  calc y = F.add y F.zero := (hF.add_zero y).symm
    _ = F.add y (F.add x (F.neg x)) := by rw [hF.add_neg]
    _ = F.add (F.add y x) (F.neg x) := (hF.add_assoc _ _ _).symm
    _ = F.add (F.add x y) (F.neg x) := by rw [hF.add_comm y x]
    _ = F.neg x := h1

theorem gfNegAdd (hF : GoodField F) (u v : α) :
    F.neg (F.add u v) = F.add (F.neg u) (F.neg v) := by
  refine (gfNegUnique hF ?_).symm
  calc F.add (F.add u v) (F.add (F.neg u) (F.neg v))
      = F.add u (F.add v (F.add (F.neg u) (F.neg v))) := hF.add_assoc _ _ _
    _ = F.add u (F.add (F.add v (F.neg u)) (F.neg v)) := by
        rw [hF.add_assoc v (F.neg u) (F.neg v)]
    _ = F.add u (F.add (F.add (F.neg u) v) (F.neg v)) := by
        rw [hF.add_comm v (F.neg u)]
    _ = F.add u (F.add (F.neg u) (F.add v (F.neg v))) := by
        rw [hF.add_assoc (F.neg u) v (F.neg v)]
    _ = F.add u (F.add (F.neg u) F.zero) := by rw [hF.add_neg v]
    _ = F.add u (F.neg u) := by rw [hF.add_zero]
    _ = F.zero := hF.add_neg u

theorem gfSubSub (hF : GoodField F) (d u v : α) :
    F.sub (F.sub d u) v = F.sub d (F.add u v) := by
  rw [hF.sub_def, hF.sub_def, hF.sub_def, gfNegAdd hF, hF.add_assoc]

theorem gfAddSubCancel (hF : GoodField F) (u d : α) : F.add u (F.sub d u) = d := by
  rw [hF.sub_def]
  calc F.add u (F.add d (F.neg u))
      = F.add u (F.add (F.neg u) d) := by rw [hF.add_comm d]
    _ = F.add (F.add u (F.neg u)) d := (hF.add_assoc _ _ _).symm
    _ = F.add F.zero d := by rw [hF.add_neg]
    _ = d := gfZeroAdd hF d

theorem gfEqAddOfSub (hF : GoodField F) {d u r : α} (h : F.sub d u = r) : d = F.add u r := by
  rw [← h, gfAddSubCancel hF]

theorem gfMulInvCancel (hF : GoodField F) {a : α} (ha : a ≠ F.zero) :
    F.mul a (F.inv a) = F.one := by
  have h1 : F.div F.one a = F.inv a := by
    rw [hF.div_eq_mul_inv, hF.one_mul]
  rw [← h1]
  exact hF.mul_div_cancel F.one a ha

theorem gfInvNeZero (hF : GoodField F) {a : α} (ha : a ≠ F.zero) : F.inv a ≠ F.zero := by
  intro h
  have h1 := gfMulInvCancel hF ha
  rw [h, hF.mul_zero] at h1
  exact hF.one_ne_zero h1.symm

theorem gfDivNeZero (hF : GoodField F) {a b : α} (ha : a ≠ F.zero) (hb : b ≠ F.zero) :
    F.div a b ≠ F.zero := by
  intro h
  have h1 := hF.mul_div_cancel a b hb
  rw [h, hF.mul_zero] at h1
  exact ha h1.symm

theorem gfEqZeroOfDivZero (hF : GoodField F) {a b : α} (hb : b ≠ F.zero)
    (h : F.div a b = F.zero) : a = F.zero := by
  have h1 := hF.mul_div_cancel a b hb
  rw [h, hF.mul_zero] at h1
  exact h1.symm

theorem gfNegNeZero (hF : GoodField F) {a : α} (ha : a ≠ F.zero) : F.neg a ≠ F.zero := by
  intro h
  have h1 : a = F.neg (F.neg a) := gfNegUnique hF (by rw [hF.add_comm]; exact hF.add_neg a)
  rw [h1, h, hF.neg_zero] at ha
  exact ha rfl

end GoodFieldLemmas

/-! ## Trimming lemmas -/

theorem rlz_append_ne (F : FieldOps α) (l : List α) {a : α} (ha : a ≠ F.zero) :
    Poly.removeLeadingZeros F (l ++ [a]) = l ++ [a] := by
  simp [Poly.removeLeadingZeros, List.dropWhile_cons, ha]

theorem rlz_append_zero (F : FieldOps α) (l : List α) :
    Poly.removeLeadingZeros F (l ++ [F.zero]) = Poly.removeLeadingZeros F l := by
  simp [Poly.removeLeadingZeros, List.dropWhile_cons]

theorem rlz_nil (F : FieldOps α) : Poly.removeLeadingZeros F ([] : List α) = [] :=
  rfl

theorem rlz_length_le (F : FieldOps α) (l : List α) :
    (Poly.removeLeadingZeros F l).length ≤ l.length := by
  simp only [Poly.removeLeadingZeros, List.length_reverse]
  calc (l.reverse.dropWhile fun a => a = F.zero).length
      ≤ l.reverse.length := (List.dropWhile_sublist _).length_le
    _ = l.length := List.length_reverse l

theorem rlz_trimmed (F : FieldOps α) (l : List α) :
    Poly.Trimmed F (Poly.removeLeadingZeros F l) := by
  induction l using List.reverseRecOn with
  | nil => exact Or.inl rfl
  | append_singleton l a ih =>
    by_cases ha : a = F.zero
    · rw [ha, rlz_append_zero]; exact ih
    · rw [rlz_append_ne F l ha]
      right
      simp only [List.getLast?_append, List.getLast?_singleton]
      intro h
      exact ha (by simpa using h)

theorem rlz_of_trimmed (F : FieldOps α) {l : List α} (h : Poly.Trimmed F l) :
    Poly.removeLeadingZeros F l = l := by
  rcases h with h | h
  · rw [h]; rfl
  · induction l using List.reverseRecOn with
    | nil => rfl
    | append_singleton l a _ =>
      have ha : a ≠ F.zero := by
        intro he
        apply h
        simp [he]
      exact rlz_append_ne F l ha

theorem rlz_getD (F : FieldOps α) (l : List α) (t : Nat) :
    (Poly.removeLeadingZeros F l).getD t F.zero = l.getD t F.zero := by
  induction l using List.reverseRecOn with
  | nil => rfl
  | append_singleton l a ih =>
    by_cases ha : a = F.zero
    · subst ha
      rw [rlz_append_zero, ih]
      rcases Nat.lt_trichotomy t l.length with h | h | h
      · rw [List.getD_append _ _ _ _ h]
      · subst h
        rw [List.getD_eq_default _ _ (le_refl _)]
        rw [List.getD_append_right _ _ _ _ (le_refl _)]
        simp
      · rw [List.getD_eq_default _ _ (by omega),
          List.getD_eq_default _ _ (by simp; omega)]
    · rw [rlz_append_ne F l ha]

theorem trimmed_last_ne (F : FieldOps α) {l : List α}
    (h : Poly.Trimmed F l) (hne : l ≠ []) :
    l.getD (l.length - 1) F.zero ≠ F.zero := by
  rcases h with h | h
  · exact absurd h hne
  · intro hz
    apply h
    rw [List.getLast?_eq_getElem?]
    have hlt : l.length - 1 < l.length := by
      have := List.length_pos.mpr hne
      omega
    rw [List.getElem?_eq_getElem hlt]
    rw [List.getD_eq_getElem _ _ hlt] at hz
    rw [hz]

theorem trimmed_ext (F : FieldOps α) {l1 l2 : List α}
    (h1 : Poly.Trimmed F l1) (h2 : Poly.Trimmed F l2)
    (h : ∀ t, l1.getD t F.zero = l2.getD t F.zero) : l1 = l2 := by
  have hlen : l1.length = l2.length := by
    by_contra hne
    rcases Nat.lt_or_ge l1.length l2.length with hlt | hge
    · have hne2 : l2 ≠ [] := by
        intro he; rw [he] at hlt; simp at hlt
      have := trimmed_last_ne F h2 hne2
      apply this
      rw [← h (l2.length - 1)]
      exact List.getD_eq_default _ _ (by omega)
    · have hlt : l2.length < l1.length := by omega
      have hne1 : l1 ≠ [] := by
        intro he; rw [he] at hlt; simp at hlt
      have := trimmed_last_ne F h1 hne1
      apply this
      rw [h (l1.length - 1)]
      exact List.getD_eq_default _ _ (by omega)
  apply List.ext_getElem hlen
  intro i hi1 hi2
  have := h i
  rw [List.getD_eq_getElem _ _ hi1, List.getD_eq_getElem _ _ hi2] at this
  exact this

theorem rlz_eq_nil (F : FieldOps α) {l : List α}
    (h : ∀ t, l.getD t F.zero = F.zero) :
    Poly.removeLeadingZeros F l = [] := by
  refine trimmed_ext F (rlz_trimmed F l) (Or.inl rfl) ?_
  intro t
  rw [rlz_getD, h t]
  rfl

theorem rlz_length_le_of_high_zero (F : FieldOps α) {l : List α} {k : Nat}
    (h : ∀ t, k ≤ t → l.getD t F.zero = F.zero) :
    (Poly.removeLeadingZeros F l).length ≤ k := by
  by_contra hgt
  push_neg at hgt
  have hne : Poly.removeLeadingZeros F l ≠ [] := by
    intro he; rw [he] at hgt; simp at hgt
  have hlast := trimmed_last_ne F (rlz_trimmed F l) hne
  apply hlast
  rw [rlz_getD]
  exact h _ (by omega)

/-! ## Finite-sum lemmas over a field -/

theorem fsum_zero (F : FieldOps α) (h : Nat → α) : fsum F 0 h = F.zero := rfl

theorem foldr_add_out {F : FieldOps α} (hF : GoodField F) (h : Nat → α) :
    ∀ (l : List Nat) (z : α),
      List.foldr (fun i acc => F.add (h i) acc) z l
        = F.add (List.foldr (fun i acc => F.add (h i) acc) F.zero l) z
  | [], z => (gfZeroAdd hF z).symm
  | i :: l, z => by
    simp only [List.foldr_cons]
    rw [foldr_add_out hF h l z, ← hF.add_assoc]

theorem fsum_succ {F : FieldOps α} (hF : GoodField F) (n : Nat) (h : Nat → α) :
    fsum F (n + 1) h = F.add (fsum F n h) (h n) := by
  unfold fsum
  rw [List.range_succ, List.foldr_append]
  simp only [List.foldr_cons, List.foldr_nil]
  rw [foldr_add_out hF h, hF.add_zero]

theorem fsum_congr {F : FieldOps α} (hF : GoodField F) {n : Nat}
    {h1 h2 : Nat → α} (he : ∀ i, i < n → h1 i = h2 i) :
    fsum F n h1 = fsum F n h2 := by
  induction n with
  | zero => rfl
  | succ n ih =>
    rw [fsum_succ hF, fsum_succ hF, ih (fun i hi => he i (by omega)),
      he n (by omega)]

theorem fsum_zero_fun {F : FieldOps α} (hF : GoodField F) (n : Nat) :
    fsum F n (fun _ => F.zero) = F.zero := by
  induction n with
  | zero => rfl
  | succ n ih => rw [fsum_succ hF, ih, hF.add_zero]

/-- A finite sum of terms that all vanish is zero. -/
theorem fsum_eq_zero {F : FieldOps α} (hF : GoodField F) {n : Nat}
    {h1 : Nat → α} (he : ∀ i, i < n → h1 i = F.zero) :
    fsum F n h1 = F.zero := by
  have hc : fsum F n h1 = fsum F n (fun _ => F.zero) := fsum_congr hF he
  rw [hc, fsum_zero_fun hF]

theorem fsum_add {F : FieldOps α} (hF : GoodField F) (n : Nat) (h1 h2 : Nat → α) :
    fsum F n (fun i => F.add (h1 i) (h2 i))
      = F.add (fsum F n h1) (fsum F n h2) := by
  induction n with
  | zero => exact (hF.add_zero F.zero).symm
  | succ n ih =>
    rw [fsum_succ hF, fsum_succ hF, fsum_succ hF, ih]
    calc F.add (F.add (fsum F n h1) (fsum F n h2)) (F.add (h1 n) (h2 n))
        = F.add (fsum F n h1) (F.add (fsum F n h2) (F.add (h1 n) (h2 n))) :=
          hF.add_assoc _ _ _
      _ = F.add (fsum F n h1) (F.add (F.add (fsum F n h2) (h1 n)) (h2 n)) := by
          rw [hF.add_assoc (fsum F n h2)]
      _ = F.add (fsum F n h1) (F.add (F.add (h1 n) (fsum F n h2)) (h2 n)) := by
          rw [hF.add_comm (fsum F n h2) (h1 n)]
      _ = F.add (fsum F n h1) (F.add (h1 n) (F.add (fsum F n h2) (h2 n))) := by
          rw [hF.add_assoc (h1 n)]
      _ = F.add (F.add (fsum F n h1) (h1 n)) (F.add (fsum F n h2) (h2 n)) :=
          (hF.add_assoc _ _ _).symm

theorem fsum_single {F : FieldOps α} (hF : GoodField F) :
    ∀ (n : Nat) (h : Nat → α) (i0 : Nat), i0 < n →
      (∀ i, i < n → i ≠ i0 → h i = F.zero) → fsum F n h = h i0 := by
  intro n
  induction n with
  | zero => intro h i0 hi0; omega
  | succ n ih =>
    intro h i0 hi0 hz
    rw [fsum_succ hF]
    by_cases hin : i0 = n
    · subst hin
      rw [fsum_eq_zero hF (fun i hi => hz i (by omega) (by omega)),
        gfZeroAdd hF]
    · rw [hz n (by omega) (by omega), hF.add_zero]
      exact ih h i0 (by omega) (fun i hi => hz i (by omega))

/-! ## Coefficient formulas for the polynomial operations -/

theorem rangeMap_getD {β : Type} (n : Nat) (f : Nat → β) (t : Nat) (z : β) :
    ((List.range n).map f).getD t z = if t < n then f t else z := by
  by_cases h : t < n
  · rw [if_pos h]
    rw [List.getD_eq_getElem _ _ (by simpa using h)]
    simp
  · rw [if_neg h]
    exact List.getD_eq_default _ _ (by simpa using h)

theorem replicate_getD (F : FieldOps α) (n t : Nat) :
    (List.replicate n F.zero).getD t F.zero = F.zero := by
  by_cases ht : t < n
  · rw [List.getD_eq_getElem _ _ (by simpa using ht)]
    simp
  · exact List.getD_eq_default _ _ (by simpa using ht)

theorem mapMul_getD {F : FieldOps α} (hF : GoodField F) (l : List α) (c : α)
    (t : Nat) :
    (l.map (fun x => F.mul x c)).getD t F.zero = F.mul (l.getD t F.zero) c := by
  by_cases ht : t < l.length
  · rw [List.getD_eq_getElem _ _ (by simpa using ht), List.getElem_map,
      List.getD_eq_getElem _ _ ht]
  · rw [List.getD_eq_default _ _ (by simpa using ht),
      List.getD_eq_default _ _ (by omega), gfZeroMul hF]

theorem mulAddInto_length (F : FieldOps α) (a res : List α) (power : Nat)
    (c : α) :
    (Poly.mulAddInto F a power c res).length = res.length := by
  simp [Poly.mulAddInto]

theorem mulAddInto_getD (F : FieldOps α) (a res : List α) (power : Nat)
    (c : α) (t : Nat) :
    (Poly.mulAddInto F a power c res).getD t F.zero
      = if power ≤ t ∧ t < power + a.length ∧ t < res.length then
          F.add (res.getD t F.zero) (F.mul (a.getD (t - power) F.zero) c)
        else res.getD t F.zero := by
  unfold Poly.mulAddInto
  rw [rangeMap_getD]
  by_cases ht : t < res.length
  · rw [if_pos ht]
    by_cases hc : power ≤ t ∧ t < power + a.length
    · rw [if_pos hc, if_pos ⟨hc.1, hc.2, ht⟩]
    · rw [if_neg hc, if_neg (by tauto)]
  · rw [if_neg ht, if_neg (by tauto)]
    exact (List.getD_eq_default _ _ (by omega)).symm

theorem polyMul_fold_spec {F : FieldOps α} (hF : GoodField F) (a b : List α)
    (ha : a ≠ []) :
    ∀ j, j ≤ b.length →
      (((List.range j).foldl
        (fun result power =>
          if b.getD power F.zero = F.zero then result
          else Poly.mulAddInto F a power (b.getD power F.zero) result)
        (List.replicate (a.length + b.length - 1) F.zero)).length
          = a.length + b.length - 1) ∧
      (∀ t, ((List.range j).foldl
        (fun result power =>
          if b.getD power F.zero = F.zero then result
          else Poly.mulAddInto F a power (b.getD power F.zero) result)
        (List.replicate (a.length + b.length - 1) F.zero)).getD t F.zero
          = fsum F j (fun p => if p ≤ t then
              F.mul (a.getD (t - p) F.zero) (b.getD p F.zero) else F.zero)) := by
  intro j
  induction j with
  | zero =>
    intro _
    refine ⟨by simp, fun t => ?_⟩
    rw [fsum_zero]
    exact replicate_getD F _ t
  | succ j ih =>
    intro hj1
    obtain ⟨ihlen, ihget⟩ := ih (by omega)
    rw [List.range_succ, List.foldl_append, List.foldl_cons, List.foldl_nil]
    have hjb : j < b.length := by omega
    have han : 0 < a.length := List.length_pos.mpr ha
    by_cases hc : b.getD j F.zero = F.zero
    · rw [if_pos hc]
      refine ⟨ihlen, fun t => ?_⟩
      rw [ihget t, fsum_succ hF]
      have hterm : (if j ≤ t then
          F.mul (a.getD (t - j) F.zero) (b.getD j F.zero) else F.zero)
            = F.zero := by
        rw [hc]
        by_cases h1 : j ≤ t
        · rw [if_pos h1, hF.mul_zero]
        · rw [if_neg h1]
      rw [hterm, hF.add_zero]
    · rw [if_neg hc]
      refine ⟨by rw [mulAddInto_length, ihlen], fun t => ?_⟩
      rw [mulAddInto_getD, ihlen, ihget t, fsum_succ hF]
      by_cases h1 : j ≤ t
      · by_cases h2 : t < j + a.length
        · have h3 : t < a.length + b.length - 1 := by omega
          rw [if_pos ⟨h1, h2, h3⟩, if_pos h1]
        · rw [if_neg (by tauto), if_pos h1]
          rw [List.getD_eq_default a _ (by omega), gfZeroMul hF, hF.add_zero]
      · rw [if_neg (by tauto), if_neg h1, hF.add_zero]

/-- The coefficients of the schoolbook product are the convolution of the
input coefficients. -/
theorem polyMul_getD {F : FieldOps α} (hF : GoodField F) (a b : List α)
    (t : Nat) :
    (Poly.polyMul F a b).getD t F.zero = convAt F a b t := by
  unfold Poly.polyMul convAt
  by_cases hz : a.length = 0 ∨ b.length = 0
  · rw [if_pos hz]
    have hzero : ∀ p, p < b.length →
        (if p ≤ t then F.mul (a.getD (t - p) F.zero) (b.getD p F.zero)
          else F.zero) = F.zero := by
      intro p hp
      rcases hz with hz | hz
      · by_cases h1 : p ≤ t
        · rw [if_pos h1, List.getD_eq_default a _ (by omega), gfZeroMul hF]
        · rw [if_neg h1]
      · omega
    rw [fsum_congr hF hzero, fsum_zero_fun hF]
    rfl
  · rw [if_neg hz]
    push_neg at hz
    have ha : a ≠ [] := by
      intro h; exact absurd (by rw [h]; rfl) hz.1
    have hb : b ≠ [] := by
      intro h; exact absurd (by rw [h]; rfl) hz.2
    by_cases h1 : b.length = 1
    · rw [if_pos h1, mapMul_getD hF]
      rw [h1]
      rw [fsum_succ hF, fsum_zero, gfZeroAdd hF]
      rw [if_pos (Nat.zero_le t), Nat.sub_zero]
    · rw [if_neg h1]
      exact (polyMul_fold_spec hF a b ha b.length (le_refl _)).2 t

/-- The product of two nonzero coefficient vectors has size `n + m − 1`. -/
theorem polyMul_length {F : FieldOps α} (a b : List α)
    (ha : a ≠ []) (hb : b ≠ []) (hF : GoodField F) :
    (Poly.polyMul F a b).length = a.length + b.length - 1 := by
  unfold Poly.polyMul
  have han : 0 < a.length := List.length_pos.mpr ha
  have hbn : 0 < b.length := List.length_pos.mpr hb
  rw [if_neg (by omega)]
  by_cases h1 : b.length = 1
  · rw [if_pos h1, List.length_map]
    omega
  · rw [if_neg h1]
    exact (polyMul_fold_spec hF a b ha b.length (le_refl _)).1

/-! ## Claim C7 — no trailing zeros after every public operation -/

theorem trimmed_of_last_getD {F : FieldOps α} {l : List α} (hne : l ≠ [])
    (h : l.getD (l.length - 1) F.zero ≠ F.zero) : Poly.Trimmed F l := by
  right
  rw [List.getLast?_eq_getElem?]
  have hlt : l.length - 1 < l.length := by
    have := List.length_pos.mpr hne; omega
  rw [List.getElem?_eq_getElem hlt]
  intro hz
  apply h
  rw [List.getD_eq_getElem _ _ hlt]
  simpa using hz

theorem trimmed_map {F : FieldOps α} {l : List α} (hl : Poly.Trimmed F l)
    {f : α → α} (hf : ∀ x, x ≠ F.zero → f x ≠ F.zero) :
    Poly.Trimmed F (l.map f) := by
  rcases eq_or_ne l [] with h | h
  · subst h; exact Or.inl rfl
  · have hlt : l.length - 1 < l.length := by
      have := List.length_pos.mpr h; omega
    apply trimmed_of_last_getD (by simpa using h)
    have hlen : (l.map f).length = l.length := by simp
    rw [hlen, List.getD_eq_getElem _ _ (by simpa using hlt), List.getElem_map]
    apply hf
    have hx := trimmed_last_ne F hl h
    rw [List.getD_eq_getElem _ _ hlt] at hx
    exact hx

/-- The schoolbook product of trimmed vectors is trimmed: its leading
coefficient is the product of the nonzero leading coefficients. -/
theorem polyMul_trimmed {F : FieldOps α} (hF : GoodField F) {a b : List α}
    (ha : Poly.Trimmed F a) (hb : Poly.Trimmed F b) :
    Poly.Trimmed F (Poly.polyMul F a b) := by
  rcases eq_or_ne a [] with hae | hae
  · subst hae
    exact Or.inl rfl
  rcases eq_or_ne b [] with hbe | hbe
  · subst hbe
    unfold Poly.polyMul
    rw [if_pos (show a.length = 0 ∨ ([] : List α).length = 0 from Or.inr rfl)]
    exact Or.inl rfl
  have han : 0 < a.length := List.length_pos.mpr hae
  have hbn : 0 < b.length := List.length_pos.mpr hbe
  have hlen := polyMul_length a b hae hbe hF
  have hne : Poly.polyMul F a b ≠ [] := by
    intro h
    rw [h] at hlen
    simp at hlen
    omega
  apply trimmed_of_last_getD hne
  rw [hlen, polyMul_getD hF]
  unfold convAt
  rw [fsum_single hF b.length _ (b.length - 1) (by omega) ?side]
  case side =>
    intro p hp hpne
    by_cases h1 : p ≤ a.length + b.length - 1 - 1
    · rw [if_pos h1]
      rw [List.getD_eq_default a _ (by omega), gfZeroMul hF]
    · rw [if_neg h1]
  rw [if_pos (by omega)]
  have hsub : a.length + b.length - 1 - 1 - (b.length - 1) = a.length - 1 := by
    omega
  rw [hsub]
  exact hF.no_zero_div _ _ (trimmed_last_ne F ha hae) (trimmed_last_ne F hb hbe)

theorem divModLoop_quot_length (F : FieldOps α) (g : List α) :
    ∀ (steps : Nat) (data : List α),
      (Poly.divModLoop F g steps data).2.length = steps
  | 0, _ => rfl
  | steps + 1, data => by
    simp [Poly.divModLoop, divModLoop_quot_length F g steps]

theorem divModLoop_quot_last (F : FieldOps α) (g : List α) (steps : Nat)
    (data : List α) :
    (Poly.divModLoop F g (steps + 1) data).2.getLast?
      = some (Poly.divModCoeff F g data steps) := by
  simp [Poly.divModLoop]

theorem polyDiv_trimmed {F : FieldOps α} (hF : GoodField F) {a b : List α}
    (ha : Poly.Trimmed F a) (hb : Poly.Trimmed F b) (hbne : b ≠ []) :
    Poly.Trimmed F (Poly.polyDiv F a b) := by
  unfold Poly.polyDiv
  by_cases h1 : a.length < b.length
  · rw [if_pos h1]; exact Or.inl rfl
  rw [if_neg h1]
  have hbn : 0 < b.length := List.length_pos.mpr hbne
  have hblast := trimmed_last_ne F hb hbne
  by_cases h2 : b.length = 1
  · rw [if_pos h2]
    unfold Poly.polyDivElem
    refine trimmed_map ha (fun x hx => ?_)
    refine hF.no_zero_div _ _ hx (gfInvNeZero hF ?_)
    rw [h2] at hblast
    simpa using hblast
  · rw [if_neg h2]
    have hge : b.length ≤ a.length := Nat.le_of_not_lt h1
    have hae : a ≠ [] := by
      intro h; subst h; rw [List.length_nil] at hge; omega
    have hk : a.length - b.length + 1 = (a.length - b.length) + 1 := rfl
    rw [hk]
    right
    rw [divModLoop_quot_last]
    intro hz
    have hc : Poly.divModCoeff F b a (a.length - b.length) = F.zero := by
      simpa using hz
    unfold Poly.divModCoeff at hc
    have hidx : a.length - b.length + b.length - 1 = a.length - 1 := by omega
    rw [hidx] at hc
    exact gfDivNeZero hF (trimmed_last_ne F ha hae) hblast hc

/-- C7: every public polynomial operation returns a trimmed coefficient
vector — construction from coefficients or from an element, `+`, `−`, `×`
(by polynomial and by element), `/` (by a nonzero polynomial and by a nonzero
element), `%` (by a nonzero polynomial), unary negation, `Derivative` and
`MakeMonic` — given operands satisfying the class invariant. -/
theorem c7_no_trailing_zeros {F : FieldOps α} (hF : GoodField F)
    (l a b : List α) (e : α)
    (ha : Poly.Trimmed F a) (hb : Poly.Trimmed F b) :
    Poly.Trimmed F (Poly.ofCoeffs F l) ∧
    Poly.Trimmed F (Poly.ofElement F e) ∧
    Poly.Trimmed F (Poly.polyAdd F a b) ∧
    Poly.Trimmed F (Poly.polySub F a b) ∧
    Poly.Trimmed F (Poly.polyAddElem F a e) ∧
    Poly.Trimmed F (Poly.polySubElem F a e) ∧
    Poly.Trimmed F (Poly.polyNeg F a) ∧
    Poly.Trimmed F (Poly.polyMul F a b) ∧
    Poly.Trimmed F (Poly.polyMulElem F a e) ∧
    (e ≠ F.zero → Poly.Trimmed F (Poly.polyDivElem F a e)) ∧
    (b ≠ [] → Poly.Trimmed F (Poly.polyDiv F a b)) ∧
    (b ≠ [] → Poly.Trimmed F (Poly.polyMod F a b)) ∧
    Poly.Trimmed F (Poly.derivative F a) ∧
    Poly.Trimmed F (Poly.makeMonic F a) := by
  refine ⟨rlz_trimmed F l, rlz_trimmed F [e], rlz_trimmed F _, rlz_trimmed F _,
    ?_, ?_, rlz_trimmed F _, polyMul_trimmed hF ha hb, ?_, ?_, ?_, ?_, ?_, ?_⟩
  · unfold Poly.polyAddElem
    cases a with
    | nil => exact rlz_trimmed F _
    | cons a0 rest => exact rlz_trimmed F _
  · unfold Poly.polySubElem
    cases a with
    | nil => exact rlz_trimmed F _
    | cons a0 rest => exact rlz_trimmed F _
  · unfold Poly.polyMulElem
    by_cases he : e = F.zero
    · rw [if_pos he]; exact Or.inl rfl
    · rw [if_neg he]
      exact trimmed_map ha (fun x hx => hF.no_zero_div _ _ hx he)
  · intro he
    unfold Poly.polyDivElem
    exact trimmed_map ha (fun x hx => hF.no_zero_div _ _ hx (gfInvNeZero hF he))
  · intro hbne
    exact polyDiv_trimmed hF ha hb hbne
  · intro hbne
    unfold Poly.polyMod
    by_cases h1 : a.length < b.length
    · rw [if_pos h1]; exact ha
    · rw [if_neg h1]; exact rlz_trimmed F _
  · unfold Poly.derivative
    by_cases h1 : a.length ≤ 1
    · rw [if_pos h1]; exact Or.inl rfl
    · rw [if_neg h1]; exact rlz_trimmed F _
  · cases a with
    | nil => exact Or.inl rfl
    | cons a0 rest =>
      simp only [Poly.makeMonic]
      by_cases h1 : (a0 :: rest).getD rest.length F.zero = F.one
      · rw [if_pos h1]; exact ha
      · rw [if_neg h1]
        refine trimmed_map ha (fun x hx => ?_)
        refine gfDivNeZero hF hx ?_
        have hlen : rest.length = (a0 :: rest).length - 1 := by simp
        rw [hlen]
        exact trimmed_last_ne F ha (by simp)

/-- Witness for C7 at the GF(8) instantiation with the polynomials
`a = 1 + x²`, `b = x`, `l = 1 + x + 0·x²` (untrimmed input) and `e = 3`. -/
theorem c7_no_trailing_zeros_witness :
    Poly.Trimmed gf8Ops (Poly.polyMul gf8Ops
      [⟨1, by omega⟩, ⟨0, by omega⟩, ⟨1, by omega⟩] [⟨0, by omega⟩, ⟨1, by omega⟩]) := by
  have h := c7_no_trailing_zeros goodField_gf8
    [⟨1, by omega⟩, ⟨1, by omega⟩, ⟨0, by omega⟩]
    [⟨1, by omega⟩, ⟨0, by omega⟩, ⟨1, by omega⟩]
    [⟨0, by omega⟩, ⟨1, by omega⟩] ⟨3, by omega⟩ (by decide) (by decide)
  exact h.2.2.2.2.2.2.2.1

/-! ## Claim C6 — Euclidean division -/

theorem subtractScaled_length (F : FieldOps α) (data g : List α)
    (power : Nat) (c : α) :
    (Poly.subtractScaled F data g power c).length = data.length := by
  simp [Poly.subtractScaled]

theorem subtractScaled_getD (F : FieldOps α) (data g : List α) (power : Nat)
    (c : α) (t : Nat) :
    (Poly.subtractScaled F data g power c).getD t F.zero
      = if power ≤ t ∧ t < power + g.length ∧ t < data.length then
          F.sub (data.getD t F.zero) (F.mul (g.getD (t - power) F.zero) c)
        else data.getD t F.zero := by
  unfold Poly.subtractScaled
  rw [rangeMap_getD]
  by_cases ht : t < data.length
  · rw [if_pos ht]
    by_cases hc : power ≤ t ∧ t < power + g.length
    · rw [if_pos hc, if_pos ⟨hc.1, hc.2, ht⟩]
    · rw [if_neg hc, if_neg (by tauto)]
  · rw [if_neg ht, if_neg (by tauto)]
    exact (List.getD_eq_default _ _ (by omega)).symm

theorem divModStep_length (F : FieldOps α) (g data : List α) (power : Nat) :
    (Poly.divModStep F g data power).length = data.length := by
  unfold Poly.divModStep
  by_cases hc : Poly.divModCoeff F g data power = F.zero
  · rw [if_pos hc]
  · rw [if_neg hc]
    exact subtractScaled_length F data g power _

/-- One elimination step, coefficient-wise: inside the touched window the
entry drops by `g[t − power] · c`; elsewhere it is unchanged (also valid in
the `continue` branch, where the coefficient is zero). -/
theorem divModStep_getD {F : FieldOps α} (hF : GoodField F) (g data : List α)
    (power : Nat) (t : Nat) :
    (Poly.divModStep F g data power).getD t F.zero
      = if power ≤ t ∧ t < power + g.length ∧ t < data.length then
          F.sub (data.getD t F.zero)
            (F.mul (g.getD (t - power) F.zero) (Poly.divModCoeff F g data power))
        else data.getD t F.zero := by
  unfold Poly.divModStep
  by_cases hc : Poly.divModCoeff F g data power = F.zero
  · rw [if_pos hc, hc]
    by_cases h1 : power ≤ t ∧ t < power + g.length ∧ t < data.length
    · rw [if_pos h1, hF.mul_zero, gfSubZero hF]
    · rw [if_neg h1]
  · rw [if_neg hc]
    exact subtractScaled_getD F data g power _ t

/-- A convolution vanishes once the first factor is read entirely out of
range. -/
theorem convAt_high_zero {F : FieldOps α} (hF : GoodField F) (qs g : List α)
    (t : Nat) (h : ∀ p, p < g.length → p ≤ t → qs.length ≤ t - p) :
    convAt F qs g t = F.zero := by
  unfold convAt
  rw [fsum_eq_zero hF]
  intro p hp
  by_cases h1 : p ≤ t
  · rw [if_pos h1, List.getD_eq_default qs _ (h p hp h1), gfZeroMul hF]
  · rw [if_neg h1]

/-- The elimination loop invariant: the loop preserves the length of `data`,
subtracts exactly the convolution of the produced quotient with `g`, and
zeroes every position from `m − 1` up to `steps + m − 2`. -/
theorem divModLoop_spec {F : FieldOps α} (hF : GoodField F) (g : List α)
    (hgne : g ≠ []) (hglast : g.getD (g.length - 1) F.zero ≠ F.zero) :
    ∀ (steps : Nat) (data : List α), steps + g.length - 1 ≤ data.length →
      ((Poly.divModLoop F g steps data).1.length = data.length) ∧
      (∀ t, (Poly.divModLoop F g steps data).1.getD t F.zero
          = F.sub (data.getD t F.zero)
              (convAt F (Poly.divModLoop F g steps data).2 g t)) ∧
      (∀ t, g.length - 1 ≤ t → t < steps + g.length - 1 →
        (Poly.divModLoop F g steps data).1.getD t F.zero = F.zero) := by
  have hm : 0 < g.length := List.length_pos.mpr hgne
  intro steps
  induction steps with
  | zero =>
    intro data _
    refine ⟨rfl, fun t => ?_, fun t h1 h2 => by omega⟩
    have hconv : convAt F (Poly.divModLoop F g 0 data).2 g t = F.zero := by
      refine convAt_high_zero hF _ g t (fun p hp hpt => ?_)
      simp [Poly.divModLoop]
    rw [hconv, gfSubZero hF]
    rfl
  | succ steps ih =>
    intro data hlen
    have hlen1 : steps + g.length - 1 ≤ (Poly.divModStep F g data steps).length := by
      rw [divModStep_length]
      omega
    obtain ⟨ih1, ih2, ih3⟩ := ih (Poly.divModStep F g data steps) hlen1
    set d1 := Poly.divModStep F g data steps with hd1
    set q0 := (Poly.divModLoop F g steps d1).2 with hq0
    set c := Poly.divModCoeff F g data steps with hc
    have hq0len : q0.length = steps := divModLoop_quot_length F g steps d1
    have hloop : Poly.divModLoop F g (steps + 1) data
        = ((Poly.divModLoop F g steps d1).1, q0 ++ [c]) := by
      simp [Poly.divModLoop, hd1, hq0, hc]
    rw [hloop]
    have hconvsplit : ∀ t, convAt F (q0 ++ [c]) g t
        = F.add (convAt F q0 g t)
          (if steps ≤ t ∧ t - steps < g.length then
            F.mul c (g.getD (t - steps) F.zero) else F.zero) := by
      intro t
      calc convAt F (q0 ++ [c]) g t
          = fsum F g.length (fun p => F.add
            (if p ≤ t then F.mul (q0.getD (t - p) F.zero) (g.getD p F.zero)
             else F.zero)
            (if p ≤ t ∧ t - p = steps then F.mul c (g.getD p F.zero)
             else F.zero)) := by
            unfold convAt
            refine fsum_congr hF (fun p hp => ?_)
            by_cases h1 : p ≤ t
            · rw [if_pos h1, if_pos h1]
              by_cases h2 : t - p = steps
              · rw [if_pos ⟨h1, h2⟩, h2]
                have e1 : (q0 ++ [c]).getD steps F.zero = c := by
                  rw [List.getD_append_right _ _ _ _ (le_of_eq hq0len)]
                  rw [hq0len, Nat.sub_self]
                  rfl
                have e2 : q0.getD steps F.zero = F.zero :=
                  List.getD_eq_default _ _ (le_of_eq hq0len)
                rw [e1, e2, gfZeroMul hF, gfZeroAdd hF]
              · rw [if_neg (by tauto), hF.add_zero]
                rcases Nat.lt_or_ge (t - p) q0.length with hlt | hge
                · rw [List.getD_append _ _ _ _ hlt]
                · have e1 : (q0 ++ [c]).getD (t - p) F.zero = F.zero := by
                    rcases Nat.lt_or_ge (t - p) (q0 ++ [c]).length with h3 | h3
                    · rw [List.getD_append_right _ _ _ _ hge]
                      have : t - p - q0.length = 0 := by
                        simp at h3
                        omega
                      rw [this]
                      have : t - p = steps := by rw [hq0len] at hge; simp at h3; omega
                      exact absurd this h2
                    · exact List.getD_eq_default _ _ h3
                  have e2 : q0.getD (t - p) F.zero = F.zero :=
                    List.getD_eq_default _ _ hge
                  rw [e1, e2]
            · rw [if_neg h1, if_neg h1, if_neg (by tauto), hF.add_zero]
        _ = F.add (fsum F g.length (fun p =>
              if p ≤ t then F.mul (q0.getD (t - p) F.zero) (g.getD p F.zero)
              else F.zero))
            (fsum F g.length (fun p =>
              if p ≤ t ∧ t - p = steps then F.mul c (g.getD p F.zero)
              else F.zero)) := fsum_add hF _ _ _
        _ = F.add (convAt F q0 g t)
            (if steps ≤ t ∧ t - steps < g.length then
              F.mul c (g.getD (t - steps) F.zero) else F.zero) := by
            congr 1
            by_cases h1 : steps ≤ t ∧ t - steps < g.length
            · rw [if_pos h1]
              rw [fsum_single hF g.length _ (t - steps) h1.2 ?others]
              case others =>
                intro p hp hpne
                rw [if_neg (by omega)]
              rw [if_pos (show t - steps ≤ t ∧ t - (t - steps) = steps by omega)]
            · rw [if_neg h1]
              rw [fsum_eq_zero hF]
              intro p hp
              rw [if_neg (by omega)]
    refine ⟨by rw [ih1, hd1, divModStep_length], fun t => ?_, fun t h1 h2 => ?_⟩
    · rw [ih2 t, hconvsplit t, hd1, divModStep_getD hF, ← hc]
      by_cases hC : steps ≤ t ∧ t < steps + g.length ∧ t < data.length
      · rw [if_pos hC]
        rw [gfSubSub hF]
        rw [if_pos (show steps ≤ t ∧ t - steps < g.length by omega)]
        rw [hF.mul_comm (g.getD (t - steps) F.zero) c]
        rw [hF.add_comm (F.mul c (g.getD (t - steps) F.zero))]
      · rw [if_neg hC]
        rw [if_neg (by omega)]
        rw [hF.add_zero]
    · rcases Nat.lt_or_ge t (steps + g.length - 1) with hlt | hge
      · exact ih3 t h1 hlt
      · have ht0 : t = steps + g.length - 1 := by omega
        rw [ih2 t]
        have hconv : convAt F q0 g t = F.zero := by
          refine convAt_high_zero hF _ g t (fun p hp hpt => ?_)
          rw [hq0len]
          omega
        rw [hconv, gfSubZero hF]
        rw [hd1, divModStep_getD hF]
        rw [if_pos (show steps ≤ t ∧ t < steps + g.length ∧ t < data.length
          by omega)]
        have hti : t - steps = g.length - 1 := by omega
        rw [hti]
        unfold Poly.divModCoeff
        have hidx : steps + g.length - 1 = t := by omega
        rw [hidx]
        rw [hF.mul_div_cancel _ _ hglast, gfSubSelf hF]

theorem polyAdd_getD {F : FieldOps α} (hF : GoodField F) (x y : List α)
    (t : Nat) :
    (Poly.polyAdd F x y).getD t F.zero
      = F.add (x.getD t F.zero) (y.getD t F.zero) := by
  unfold Poly.polyAdd
  rw [rlz_getD, rangeMap_getD]
  by_cases ht : t < max x.length y.length
  · rw [if_pos ht]; rfl
  · rw [if_neg ht]
    rw [List.getD_eq_default x _ (by omega), List.getD_eq_default y _ (by omega),
      hF.add_zero]

/-- C6: for trimmed `f` and nonzero trimmed `g`,
`(f / g) · g + (f mod g) = f`; the remainder is zero or has size below the
divisor's (hence strictly smaller degree); and when `|f| < |g|` the quotient
is the zero polynomial and the remainder is `f` itself. -/
theorem c6_euclidean_division {F : FieldOps α} (hF : GoodField F)
    {a b : List α} (ha : Poly.Trimmed F a) (hb : Poly.Trimmed F b)
    (hbne : b ≠ []) :
    Poly.polyAdd F (Poly.polyMul F (Poly.polyDiv F a b) b) (Poly.polyMod F a b)
        = a ∧
    (Poly.polyMod F a b = [] ∨ (Poly.polyMod F a b).length < b.length) ∧
    (a.length < b.length → Poly.polyDiv F a b = [] ∧ Poly.polyMod F a b = a) := by
  have hbn : 0 < b.length := List.length_pos.mpr hbne
  have hblast := trimmed_last_ne F hb hbne
  by_cases h1 : a.length < b.length
  · have hdiv : Poly.polyDiv F a b = [] := by
      unfold Poly.polyDiv; rw [if_pos h1]
    have hmod : Poly.polyMod F a b = a := by
      unfold Poly.polyMod; rw [if_pos h1]
    refine ⟨?_, ?_, fun _ => ⟨hdiv, hmod⟩⟩
    · rw [hdiv, hmod]
      have hmul : Poly.polyMul F ([] : List α) b = [] := by
        unfold Poly.polyMul
        rw [if_pos (show ([] : List α).length = 0 ∨ b.length = 0 from Or.inl rfl)]
      rw [hmul]
      refine trimmed_ext F (by unfold Poly.polyAdd; exact rlz_trimmed F _) ha
        (fun t => ?_)
      rw [polyAdd_getD hF]
      rw [show (([] : List α).getD t F.zero) = F.zero from rfl, gfZeroAdd hF]
    · rw [hmod]
      right
      exact h1
  · push_neg at h1
    have hane : a ≠ [] := by
      intro h; subst h; rw [List.length_nil] at h1; omega
    have halast := trimmed_last_ne F ha hane
    by_cases h2 : b.length = 1
    · have hb0 : b.getD 0 F.zero ≠ F.zero := by
        have hx := hblast; rw [h2] at hx; simpa using hx
      have hdiv : Poly.polyDiv F a b
          = Poly.polyDivElem F a (b.getD 0 F.zero) := by
        unfold Poly.polyDiv; rw [if_neg (by omega), if_pos h2]
      obtain ⟨s1, s2, s3⟩ := divModLoop_spec hF b hbne hblast
        (a.length - b.length + 1) a (by omega)
      have hmod : Poly.polyMod F a b = [] := by
        unfold Poly.polyMod
        rw [if_neg (by omega)]
        apply rlz_eq_nil
        intro t
        rcases Nat.lt_or_ge t (a.length - b.length + 1 + b.length - 1) with hlt | hge
        · exact s3 t (by omega) hlt
        · exact List.getD_eq_default _ _ (by rw [s1]; omega)
      refine ⟨?_, Or.inl hmod, fun hc => absurd hc (by omega)⟩
      rw [hdiv, hmod]
      refine trimmed_ext F (by unfold Poly.polyAdd; exact rlz_trimmed F _) ha
        (fun t => ?_)
      rw [polyAdd_getD hF]
      rw [show (([] : List α).getD t F.zero) = F.zero from rfl, hF.add_zero]
      rw [polyMul_getD hF]
      unfold convAt
      rw [h2, fsum_succ hF, fsum_zero, gfZeroAdd hF, if_pos (Nat.zero_le t),
        Nat.sub_zero]
      unfold Poly.polyDivElem
      rw [mapMul_getD hF]
      rw [hF.mul_assoc, hF.mul_comm (F.inv (b.getD 0 F.zero)),
        gfMulInvCancel hF hb0, gfMulOne hF]
    · obtain ⟨s1, s2, s3⟩ := divModLoop_spec hF b hbne hblast
        (a.length - b.length + 1) a (by omega)
      have hdiv : Poly.polyDiv F a b
          = (Poly.divModLoop F b (a.length - b.length + 1) a).2 := by
        unfold Poly.polyDiv; rw [if_neg (by omega), if_neg h2]
      have hmodd : Poly.polyMod F a b = Poly.removeLeadingZeros F
          (Poly.divModLoop F b (a.length - b.length + 1) a).1 := by
        unfold Poly.polyMod; rw [if_neg (by omega)]
      refine ⟨?_, ?_, fun hc => absurd hc (by omega)⟩
      · rw [hdiv, hmodd]
        refine trimmed_ext F (by unfold Poly.polyAdd; exact rlz_trimmed F _) ha
          (fun t => ?_)
        rw [polyAdd_getD hF, rlz_getD, polyMul_getD hF, s2 t]
        exact gfAddSubCancel hF _ _
      · right
        rw [hmodd]
        have hlen2 : (Poly.removeLeadingZeros F
            (Poly.divModLoop F b (a.length - b.length + 1) a).1).length
              ≤ b.length - 1 := by
          refine rlz_length_le_of_high_zero F (fun t ht => ?_)
          rcases Nat.lt_or_ge t (a.length - b.length + 1 + b.length - 1)
            with hlt | hge
          · exact s3 t (by omega) hlt
          · exact List.getD_eq_default _ _ (by rw [s1]; omega)
        omega

/-- Witness for C6 at the GF(8) instantiation: `f = 1 + x + x³`, `g = 1 + x`
(packed values). -/
theorem c6_euclidean_division_witness :
    Poly.polyAdd gf8Ops
        (Poly.polyMul gf8Ops
          (Poly.polyDiv gf8Ops
            [⟨1, by omega⟩, ⟨1, by omega⟩, ⟨0, by omega⟩, ⟨1, by omega⟩]
            [⟨1, by omega⟩, ⟨1, by omega⟩])
          [⟨1, by omega⟩, ⟨1, by omega⟩])
        (Poly.polyMod gf8Ops
          [⟨1, by omega⟩, ⟨1, by omega⟩, ⟨0, by omega⟩, ⟨1, by omega⟩]
          [⟨1, by omega⟩, ⟨1, by omega⟩])
      = [⟨1, by omega⟩, ⟨1, by omega⟩, ⟨0, by omega⟩, ⟨1, by omega⟩] :=
  (c6_euclidean_division goodField_gf8 (by decide) (by decide)
    (by simp)).1

/-! ## Claim C9 — p-th root extraction -/

theorem set_getD_eq {l : List α} {i : Nat} (h : i < l.length) (v z : α) :
    (l.set i v).getD i z = v := by
  rw [List.getD_eq_getElem?_getD, List.getElem?_set_self h]
  rfl

theorem set_getD_ne {l : List α} {i j : Nat} (h : i ≠ j) (v z : α) :
    (l.set i v).getD j z = l.getD j z := by
  rw [List.getD_eq_getElem?_getD, List.getElem?_set_ne h,
    ← List.getD_eq_getElem?_getD]

theorem numIter_le (n : Nat) {p : Nat} (hp : 2 ≤ p) : (n + p - 1) / p ≤ n := by
  rcases Nat.eq_zero_or_pos n with hn | hn
  · subst hn
    rw [Nat.div_eq_of_lt (by omega)]
  · rw [Nat.div_le_iff_le_mul_add_pred (by omega)]
    have := Nat.le_mul_of_pos_left n (show 0 < p by omega)
    omega

/-- The in-place root-extraction loop: slot `t < m` receives
`a[p·t] ^ (p^(k−1))` (reads always happen at indices not yet overwritten);
slots from `m` on are untouched. -/
theorem rootFold_spec (F : FieldOps α) (hp : 2 ≤ F.fieldBase) (a : List α) :
    ∀ m, m ≤ (a.length + F.fieldBase - 1) / F.fieldBase →
      (((List.range m).foldl
        (fun es j => es.set j (F.pow (es.getD (F.fieldBase * j) F.zero)
          (binPow F.fieldBase (F.fieldPower - 1)))) a).length = a.length) ∧
      (∀ t, m ≤ t → ((List.range m).foldl
        (fun es j => es.set j (F.pow (es.getD (F.fieldBase * j) F.zero)
          (binPow F.fieldBase (F.fieldPower - 1)))) a).getD t F.zero
            = a.getD t F.zero) ∧
      (∀ t, t < m → ((List.range m).foldl
        (fun es j => es.set j (F.pow (es.getD (F.fieldBase * j) F.zero)
          (binPow F.fieldBase (F.fieldPower - 1)))) a).getD t F.zero
            = F.pow (a.getD (F.fieldBase * t) F.zero)
                (binPow F.fieldBase (F.fieldPower - 1))) := by
  intro m
  induction m with
  | zero => exact fun _ => ⟨rfl, fun t _ => rfl, fun t ht => by omega⟩
  | succ m ih =>
    intro hm1
    obtain ⟨ih1, ih2, ih3⟩ := ih (by omega)
    rw [List.range_succ, List.foldl_append, List.foldl_cons, List.foldl_nil]
    have hmlen : m < a.length := by
      have h2 := numIter_le a.length hp
      omega
    refine ⟨by rw [List.length_set, ih1], fun t ht => ?_, fun t ht => ?_⟩
    · rw [set_getD_ne (by omega)]
      exact ih2 t (by omega)
    · rcases Nat.lt_or_ge t m with hlt | hge
      · rw [set_getD_ne (by omega)]
        exact ih3 t hlt
      · have htm : t = m := by omega
        subst htm
        rw [set_getD_eq (by rw [ih1]; exact hmlen)]
        rw [ih2 (F.fieldBase * t) (Nat.le_mul_of_pos_left t (by omega))]

/-- `FieldBaseRoot` computes the trimmed list of
`a[p·j] ^ (p^(k−1))` for `j < ⌈|a| / p⌉`. -/
theorem fieldBaseRoot_eq (F : FieldOps α) (hp : 2 ≤ F.fieldBase) (a : List α) :
    Solver.fieldBaseRoot F a = Poly.removeLeadingZeros F
      ((List.range ((a.length + F.fieldBase - 1) / F.fieldBase)).map
        (fun j => F.pow (a.getD (F.fieldBase * j) F.zero)
          (binPow F.fieldBase (F.fieldPower - 1)))) := by
  obtain ⟨s1, _, s3⟩ := rootFold_spec F hp a
    ((a.length + F.fieldBase - 1) / F.fieldBase) (le_refl _)
  have hunfold : Solver.fieldBaseRoot F a = Poly.removeLeadingZeros F
      (((List.range ((a.length + F.fieldBase - 1) / F.fieldBase)).foldl
        (fun es j => es.set j (F.pow (es.getD (F.fieldBase * j) F.zero)
          (binPow F.fieldBase (F.fieldPower - 1)))) a).take
        ((a.length + F.fieldBase - 1) / F.fieldBase)) := rfl
  rw [hunfold]
  congr 1
  have hni := numIter_le a.length hp
  apply List.ext_getElem
  · rw [List.length_take, s1, List.length_map, List.length_range]
    omega
  · intro i h1 h2
    rw [List.length_take, s1] at h1
    rw [List.length_map, List.length_range] at h2
    have hgd : ∀ (l : List α) (hi : i < l.length), l[i] = l.getD i F.zero := by
      intro l hi
      rw [List.getD_eq_getElem l _ hi]
    rw [hgd _ (by rw [List.length_take, s1]; omega),
      hgd _ (by rw [List.length_map, List.length_range]; omega)]
    rw [List.getD_eq_getElem?_getD, List.getElem?_take_of_lt (by omega),
      ← List.getD_eq_getElem?_getD]
    rw [s3 i (by omega), rangeMap_getD, if_pos (by omega)]

/-- GF(8) facts used for the square of the root: `x + x = 0`,
`(x⁴)·(x⁴) = x` (Fermat: `x⁸ = x`), and fourth powers of nonzero elements
are nonzero. -/
theorem gf8_root_facts :
    (∀ x : GF8, x + x = 0) ∧
    (∀ x : GF8, gf8Ops.mul (gf8Ops.pow x 4) (gf8Ops.pow x 4) = x) ∧
    (∀ x : GF8, x ≠ gf8Ops.zero → gf8Ops.pow x 4 ≠ gf8Ops.zero) ∧
    (∀ v : Nat, v % 2 = 1 → gf8Ops.asPolyConstant v = gf8Ops.one) := by
  refine ⟨by decide, by decide, by decide, fun v hv => ?_⟩
  show wrap8 (v &&& 1) = _
  have : v &&& 1 = v % 2 := Nat.and_one_is_mod v
  rw [this, hv]
  rfl

/-- Sums over GF(8) written with the embedded field addition agree with
`Finset.sum` for the monoid structure. -/
theorem fsum_eq_finset_sum (n : Nat) (h : Nat → GF8) :
    fsum gf8Ops n h = ∑ i ∈ Finset.range n, h i := by
  induction n with
  | zero => rfl
  | succ n ih =>
    rw [fsum_succ goodField_gf8, Finset.sum_range_succ, ih]
    rfl

theorem derivative_zero_odd_coeff {f : List GF8}
    (hd : Poly.derivative gf8Ops f = []) :
    ∀ j, j < f.length → j % 2 = 1 → f.getD j gf8Ops.zero = gf8Ops.zero := by
  intro j hj hodd
  rcases Nat.lt_or_ge f.length 2 with h2 | h2
  · omega
  · unfold Poly.derivative at hd
    rw [if_neg (by omega)] at hd
    have hz := rlz_getD gf8Ops ((List.range (f.length - 1)).map
      (fun i => gf8Ops.mul (gf8Ops.asPolyConstant (i + 1))
        (f.getD (i + 1) gf8Ops.zero))) (j - 1)
    rw [hd] at hz
    rw [rangeMap_getD, if_pos (by omega)] at hz
    have hj1 : j - 1 + 1 = j := by omega
    rw [hj1, gf8_root_facts.2.2.2 j hodd, goodField_gf8.one_mul] at hz
    exact hz.symm

/-- C9: for every nonzero GF(8)-polynomial `f = Σ a[i]·xⁱ` whose formal
derivative is zero, `FieldBaseRoot` returns exactly
`g = Σ b[j]·xʲ` with `b[j] = a[p·j]^(p^(k−1))` (here `p = 2`, `k = 3`,
so `b[j] = a[2j]⁴`), and this `g` satisfies `g · g = f`, i.e. `g^p = f`. -/
theorem c9_field_base_root (f : List GF8)
    (hf : Poly.Trimmed gf8Ops f) (hfne : f ≠ [])
    (hd : Poly.derivative gf8Ops f = []) :
    Solver.fieldBaseRoot gf8Ops f
        = (List.range ((f.length + 1) / 2)).map
            (fun j => gf8Ops.pow (f.getD (2 * j) gf8Ops.zero) 4) ∧
    Poly.polyMul gf8Ops (Solver.fieldBaseRoot gf8Ops f)
        (Solver.fieldBaseRoot gf8Ops f) = f := by
  have hlast := trimmed_last_ne gf8Ops hf hfne
  have hn1 : 0 < f.length := List.length_pos.mpr hfne
  have hodd := derivative_zero_odd_coeff hd
  have hnodd : f.length % 2 = 1 := by
    by_contra he
    exact hlast (hodd (f.length - 1) (by omega) (by omega))
  have hglast : ((List.range ((f.length + 1) / 2)).map
      (fun j => gf8Ops.pow (f.getD (2 * j) gf8Ops.zero) 4)).getD
        ((f.length + 1) / 2 - 1) gf8Ops.zero ≠ gf8Ops.zero := by
    rw [rangeMap_getD, if_pos (by omega)]
    have hidx : 2 * ((f.length + 1) / 2 - 1) = f.length - 1 := by omega
    rw [hidx]
    exact gf8_root_facts.2.2.1 _ hlast
  have hroot : Solver.fieldBaseRoot gf8Ops f
      = (List.range ((f.length + 1) / 2)).map
          (fun j => gf8Ops.pow (f.getD (2 * j) gf8Ops.zero) 4) := by
    rw [fieldBaseRoot_eq gf8Ops (le_refl 2) f]
    apply rlz_of_trimmed
    have hl : ((List.range ((f.length + 1) / 2)).map
        (fun j => gf8Ops.pow (f.getD (2 * j) gf8Ops.zero) 4)).length
          = (f.length + 1) / 2 := by simp
    have htr : Poly.Trimmed gf8Ops ((List.range ((f.length + 1) / 2)).map
        (fun j => gf8Ops.pow (f.getD (2 * j) gf8Ops.zero) 4)) := by
      apply trimmed_of_last_getD
      · intro he
        rw [he] at hl
        rw [List.length_nil] at hl
        omega
      · rw [hl]
        exact hglast
    exact htr
  refine ⟨hroot, ?_⟩
  rw [hroot]
  have hglen : ((List.range ((f.length + 1) / 2)).map
      (fun j => gf8Ops.pow (f.getD (2 * j) gf8Ops.zero) 4)).length
        = (f.length + 1) / 2 := by simp
  have hgne : ((List.range ((f.length + 1) / 2)).map
      (fun j => gf8Ops.pow (f.getD (2 * j) gf8Ops.zero) 4)) ≠ [] := by
    intro he
    rw [he] at hglen
    rw [List.length_nil] at hglen
    omega
  have hggetD : ∀ q, ((List.range ((f.length + 1) / 2)).map
      (fun j => gf8Ops.pow (f.getD (2 * j) gf8Ops.zero) 4)).getD q gf8Ops.zero
        = if q < (f.length + 1) / 2 then
            gf8Ops.pow (f.getD (2 * q) gf8Ops.zero) 4 else gf8Ops.zero :=
    fun q => rangeMap_getD _ _ q _
  rcases Nat.lt_or_ge f.length 2 with hsmall | hbig
  · -- constant polynomial: n = 1
    have hn : f.length = 1 := by omega
    obtain ⟨a0, rfl⟩ := List.length_eq_one.mp hn
    have harith : (([a0] : List GF8).length + 1) / 2 = 1 := by
      rw [List.length_singleton]
    rw [harith]
    have hred : Poly.polyMul gf8Ops
        ((List.range 1).map
          (fun j => gf8Ops.pow (([a0] : List GF8).getD (2 * j) gf8Ops.zero) 4))
        ((List.range 1).map
          (fun j => gf8Ops.pow (([a0] : List GF8).getD (2 * j) gf8Ops.zero) 4))
        = [gf8Ops.mul (gf8Ops.pow a0 4) (gf8Ops.pow a0 4)] := rfl
    rw [hred, gf8_root_facts.2.1 a0]
  · -- n ≥ 3 (odd)
    have hn3 : 3 ≤ f.length := by omega
    have hprodlen : (Poly.polyMul gf8Ops
        ((List.range ((f.length + 1) / 2)).map
          (fun j => gf8Ops.pow (f.getD (2 * j) gf8Ops.zero) 4))
        ((List.range ((f.length + 1) / 2)).map
          (fun j => gf8Ops.pow (f.getD (2 * j) gf8Ops.zero) 4))).length
          = f.length := by
      rw [polyMul_length _ _ hgne hgne goodField_gf8, hglen]
      omega
    have hconv : ∀ t, t < f.length →
        convAt gf8Ops
          ((List.range ((f.length + 1) / 2)).map
            (fun j => gf8Ops.pow (f.getD (2 * j) gf8Ops.zero) 4))
          ((List.range ((f.length + 1) / 2)).map
            (fun j => gf8Ops.pow (f.getD (2 * j) gf8Ops.zero) 4)) t
          = f.getD t gf8Ops.zero := by
      intro t ht
      unfold convAt
      rw [hglen, fsum_eq_finset_sum]
      have hkhigh : ∀ p, (f.length + 1) / 2 ≤ p →
          gf8Ops.mul (((List.range ((f.length + 1) / 2)).map
            (fun j => gf8Ops.pow (f.getD (2 * j) gf8Ops.zero) 4)).getD
              (t - p) gf8Ops.zero)
            (((List.range ((f.length + 1) / 2)).map
              (fun j => gf8Ops.pow (f.getD (2 * j) gf8Ops.zero) 4)).getD
                p gf8Ops.zero) = gf8Ops.zero := by
        intro p hp
        rw [hggetD p, if_neg (by omega), goodField_gf8.mul_zero]
      have hstepA : ∑ p ∈ Finset.range ((f.length + 1) / 2),
          (if p ≤ t then gf8Ops.mul
            (((List.range ((f.length + 1) / 2)).map
              (fun j => gf8Ops.pow (f.getD (2 * j) gf8Ops.zero) 4)).getD
                (t - p) gf8Ops.zero)
            (((List.range ((f.length + 1) / 2)).map
              (fun j => gf8Ops.pow (f.getD (2 * j) gf8Ops.zero) 4)).getD
                p gf8Ops.zero) else gf8Ops.zero)
          = ∑ p ∈ Finset.range (t + 1), gf8Ops.mul
            (((List.range ((f.length + 1) / 2)).map
              (fun j => gf8Ops.pow (f.getD (2 * j) gf8Ops.zero) 4)).getD
                (t - p) gf8Ops.zero)
            (((List.range ((f.length + 1) / 2)).map
              (fun j => gf8Ops.pow (f.getD (2 * j) gf8Ops.zero) 4)).getD
                p gf8Ops.zero) := by
        rw [Finset.sum_subset (Finset.range_subset.mpr
          (show (f.length + 1) / 2 ≤ (f.length + 1) / 2 + t + 1 by omega))
          (fun x hx hnx => ?vanishA)]
        case vanishA =>
          rw [Finset.mem_range] at hx
          rw [Finset.mem_range] at hnx
          by_cases hxt : x ≤ t
          · rw [if_pos hxt, hkhigh x (by omega)]
            rfl
          · rw [if_neg hxt]
            rfl
        rw [← Finset.sum_subset (Finset.range_subset.mpr
          (show t + 1 ≤ (f.length + 1) / 2 + t + 1 by omega))
          (fun x hx hnx => ?vanishB)]
        case vanishB =>
          rw [Finset.mem_range] at hx
          rw [Finset.mem_range] at hnx
          rw [if_neg (by omega)]
          rfl
        refine Finset.sum_congr rfl (fun p hp => ?_)
        rw [Finset.mem_range] at hp
        rw [if_pos (by omega)]
      rw [hstepA]
      by_cases hpar : t % 2 = 1
      · -- odd coefficient: everything cancels in pairs
        rw [hodd t ht hpar]
        refine Finset.sum_involution (fun p _ => t - p)
          (fun p hp => ?h1) (fun p hp hne => ?h3)
          (fun p hp => ?hmem) (fun p hp => ?h4)
        case h1 =>
          rw [Finset.mem_range] at hp
          have hsymm : t - (t - p) = p := by omega
          rw [hsymm]
          rw [goodField_gf8.mul_comm (((List.range ((f.length + 1) / 2)).map
            (fun j => gf8Ops.pow (f.getD (2 * j) gf8Ops.zero) 4)).getD
              p gf8Ops.zero)]
          exact gf8_root_facts.1 _
        case h3 =>
          rw [Finset.mem_range] at hp
          show t - p ≠ p
          omega
        case hmem =>
          rw [Finset.mem_range] at hp
          show t - p ∈ Finset.range (t + 1)
          rw [Finset.mem_range]
          omega
        case h4 =>
          rw [Finset.mem_range] at hp
          show t - (t - p) = p
          omega
      · -- even coefficient: the middle term survives
        have hu : t / 2 ∈ Finset.range (t + 1) := by
          rw [Finset.mem_range]; omega
        rw [← Finset.add_sum_erase _ _ hu]
        have herase : ∑ p ∈ (Finset.range (t + 1)).erase (t / 2),
            gf8Ops.mul
              (((List.range ((f.length + 1) / 2)).map
                (fun j => gf8Ops.pow (f.getD (2 * j) gf8Ops.zero) 4)).getD
                  (t - p) gf8Ops.zero)
              (((List.range ((f.length + 1) / 2)).map
                (fun j => gf8Ops.pow (f.getD (2 * j) gf8Ops.zero) 4)).getD
                  p gf8Ops.zero) = 0 := by
          refine Finset.sum_involution (fun p _ => t - p)
            (fun p hp => ?h1) (fun p hp hne => ?h3)
            (fun p hp => ?hmem) (fun p hp => ?h4)
          case h1 =>
            rw [Finset.mem_erase, Finset.mem_range] at hp
            have hsymm : t - (t - p) = p := by omega
            rw [hsymm]
            rw [goodField_gf8.mul_comm (((List.range ((f.length + 1) / 2)).map
              (fun j => gf8Ops.pow (f.getD (2 * j) gf8Ops.zero) 4)).getD
                p gf8Ops.zero)]
            exact gf8_root_facts.1 _
          case h3 =>
            rw [Finset.mem_erase, Finset.mem_range] at hp
            show t - p ≠ p
            omega
          case hmem =>
            rw [Finset.mem_erase, Finset.mem_range] at hp
            show t - p ∈ (Finset.range (t + 1)).erase (t / 2)
            rw [Finset.mem_erase, Finset.mem_range]
            omega
          case h4 =>
            rw [Finset.mem_erase, Finset.mem_range] at hp
            show t - (t - p) = p
            omega
        rw [herase, add_zero]
        have hmid : t - t / 2 = t / 2 := by omega
        rw [hmid, hggetD (t / 2), if_pos (by omega)]
        have h2u : 2 * (t / 2) = t := by omega
        rw [h2u]
        exact gf8_root_facts.2.1 _
    apply List.ext_getElem (by rw [hprodlen])
    intro i h1 h2
    rw [← List.getD_eq_getElem (Poly.polyMul gf8Ops
        ((List.range ((f.length + 1) / 2)).map
          (fun j => gf8Ops.pow (f.getD (2 * j) gf8Ops.zero) 4))
        ((List.range ((f.length + 1) / 2)).map
          (fun j => gf8Ops.pow (f.getD (2 * j) gf8Ops.zero) 4)))
        gf8Ops.zero h1,
      ← List.getD_eq_getElem f gf8Ops.zero h2,
      polyMul_getD goodField_gf8]
    exact hconv i h2

/-- Witness for C9 at `f = 1 + x²` over GF(8): the root is `1 + x` and its
square is `f`. -/
theorem c9_field_base_root_witness :
    Solver.fieldBaseRoot gf8Ops [⟨1, by omega⟩, ⟨0, by omega⟩, ⟨1, by omega⟩]
        = (List.range ((([⟨1, by omega⟩, ⟨0, by omega⟩, ⟨1, by omega⟩] :
            List GF8).length + 1) / 2)).map (fun j =>
            gf8Ops.pow (([⟨1, by omega⟩, ⟨0, by omega⟩, ⟨1, by omega⟩] :
              List GF8).getD (2 * j) gf8Ops.zero) 4) ∧
    Poly.polyMul gf8Ops
        (Solver.fieldBaseRoot gf8Ops
          [⟨1, by omega⟩, ⟨0, by omega⟩, ⟨1, by omega⟩])
        (Solver.fieldBaseRoot gf8Ops
          [⟨1, by omega⟩, ⟨0, by omega⟩, ⟨1, by omega⟩])
      = [⟨1, by omega⟩, ⟨0, by omega⟩, ⟨1, by omega⟩] := by
  exact c9_field_base_root _ (by decide) (by simp) (by decide)

end Factorization
